import Mathlib

/-!
Verification of the OBJ Model Engine
(`src/backend/app/services/obj_service.py`).

The Python code is shallowly embedded over exact rationals:

* Python `str` values become `Str := List Char`; the handful of string
  operations the code uses (`split('\n')`, `strip()`, `split()`,
  `split(':')`, `startswith`, `endswith`, `replace`) are defined below and
  mirror CPython's semantics on the inputs that occur.
* `float` values become `ℚ`.  `float(s)` is modelled by `parseFloat`
  (decimal literals with optional sign and fraction; the exponent /
  `inf` / `nan` forms of CPython's `float` are not modelled).  The
  `f"{x:.6f}"` fixed-point format is modelled by `fmt6`, which rounds the
  exact rational to six decimal digits.
* A raised Python exception becomes `Except.error PyExc.exc`; code that
  cannot raise returns `Except.ok`.

Real-valued (square-root) computations appear only in normal smoothing;
that operation is additionally modelled exactly over `ℝ` further below
(`smoothNormalsReal`).
-/

set_option maxHeartbeats 1600000
set_option maxRecDepth 4000

abbrev Str := List Char

/-- Python `s.split(c)` for a one-character separator: splits on every
occurrence of `c`, keeping empty pieces, and returns `[""]` on `""`. -/
def splitOnCharFn (c : Char) : Str → List Str
  | [] => [[]]
  | d :: rest =>
    if d = c then [] :: splitOnCharFn c rest
    else
      match splitOnCharFn c rest with
      | [] => [[d]]
      | t :: ts => (d :: t) :: ts

/-- Python `'\n'.join(lines)`. -/
def joinNL : List Str → Str
  | [] => []
  | [s] => s
  | s :: t :: rest => s ++ '\n' :: joinNL (t :: rest)

/-- Python `s.strip()`: remove leading and trailing whitespace. -/
def stripStr (s : Str) : Str :=
  ((s.dropWhile Char.isWhitespace).reverse.dropWhile Char.isWhitespace).reverse

/-- Accumulator loop behind `splitWS` (`cur` is the current token, reversed). -/
def splitWSAux : Str → Str → List Str
  | [], cur => if cur = [] then [] else [cur.reverse]
  | c :: rest, cur =>
    if c.isWhitespace then
      if cur = [] then splitWSAux rest [] else cur.reverse :: splitWSAux rest []
    else splitWSAux rest (c :: cur)

/-- Python `s.split()` (no argument): split on runs of whitespace,
discarding empty tokens. -/
def splitWS (s : Str) : List Str := splitWSAux s []

/-- Python `s.startswith(p)`, as a Boolean on char lists. -/
def isPre : Str → Str → Bool
  | [], _ => true
  | _ :: _, [] => false
  | c :: cs, d :: ds => c = d && isPre cs ds

/-- Python `s.endswith(p)`. -/
def isSuf (p s : Str) : Bool := isPre p.reverse s.reverse

/-- Python `s.replace(pat, repl)`: replace every non-overlapping occurrence,
scanning left to right.  (For `pat = ""` CPython inserts `repl` between all
characters; that case never occurs in this code and is modelled as `s`.) -/
def replaceAll (s pat repl : Str) : Str :=
  match pat with
  | [] => s
  | p :: ps =>
    match s with
    | [] => []
    | c :: rest =>
      if isPre (p :: ps) (c :: rest) then repl ++ replaceAll (rest.drop ps.length) (p :: ps) repl
      else c :: replaceAll rest (p :: ps) repl
termination_by s.length
decreasing_by
  · simp only [List.length_drop, List.length_cons]
    omega
  · simp only [List.length_cons]
    omega

/-- Numeric value of a decimal digit character, `none` otherwise. -/
def digitVal (c : Char) : Option ℕ :=
  if '0' ≤ c ∧ c ≤ '9' then some (c.toNat - 48) else none

def parseNatAcc : Str → ℕ → Option ℕ
  | [], acc => some acc
  | c :: rest, acc =>
    match digitVal c with
    | some d => parseNatAcc rest (acc * 10 + d)
    | none => none

/-- Decimal natural-number literal (at least one digit, digits only). -/
def parseNat (s : Str) : Option ℕ :=
  match s with
  | [] => none
  | _ :: _ => parseNatAcc s 0

/-- Python `int(s)` on the index tokens that occur in face references:
an optional sign followed by decimal digits. -/
def parseInt (s : Str) : Option ℤ :=
  match s with
  | '-' :: rest => (parseNat rest).map (fun n => -(n : ℤ))
  | '+' :: rest => (parseNat rest).map (fun n => (n : ℤ))
  | _ => (parseNat s).map (fun n => (n : ℤ))

/-- Unsigned part of `parseFloat`: `digits`, `digits.digits`, `digits.`
or `.digits`. -/
def parseFloatCore (s : Str) : Option ℚ :=
  match splitOnCharFn '.' s with
  | [ip] => (parseNat ip).map (fun n => (n : ℚ))
  | [ip, fp] =>
    if ip = [] ∧ fp = [] then none
    else
      match (if ip = [] then some 0 else parseNat ip),
            (if fp = [] then some 0 else parseNat fp) with
      | some i, some f => some ((i : ℚ) + (f : ℚ) / (10 : ℚ) ^ fp.length)
      | _, _ => none
  | _ => none

/-- Python `float(s)` on plain decimal literals, producing the exact
rational value of the literal. -/
def parseFloat (s : Str) : Option ℚ :=
  match s with
  | '-' :: rest => (parseFloatCore rest).map Neg.neg
  | '+' :: rest => parseFloatCore rest
  | _ => parseFloatCore s

/-- Decimal rendering of a natural number (no sign, no leading zeros
except for `0` itself). -/
def renderNatFuel : ℕ → ℕ → Str
  | 0, _ => []
  | fuel + 1, n =>
    if n < 10 then [Nat.digitChar n]
    else renderNatFuel fuel (n / 10) ++ [Nat.digitChar (n % 10)]

def renderNat (n : ℕ) : Str := renderNatFuel (n + 1) n

/-- Left-pad with `'0'` to width `k`. -/
def padZeros (k : ℕ) (s : Str) : Str := List.replicate (k - s.length) '0' ++ s

/-- The integer `x·10⁶` rounded to the nearest integer (ties upward): the
value whose decimal rendering `f"{x:.6f}"` prints.  The Python code formats
binary doubles, which round ties to even bits; on the exact rationals of
this model the tie rule is irrelevant to every statement proved here. -/
def round6 (q : ℚ) : ℤ := ⌊q * 1000000 + 1 / 2⌋

/-- Fixed-point rendering of `n / 10⁶` with exactly six fractional digits. -/
def fmtFixed6 (n : ℤ) : Str :=
  (if n < 0 then ['-'] else []) ++
    renderNat (n.natAbs / 1000000) ++ '.' :: padZeros 6 (renderNat (n.natAbs % 1000000))

/-- Python `f"{q:.6f}"`. -/
def fmt6 (q : ℚ) : Str := fmtFixed6 (round6 q)

/-- The rational actually denoted by the six-digit rendering of `q`. -/
def r6 (q : ℚ) : ℚ := (round6 q : ℚ) / 1000000

/-- 3-component vector, the model of a `numpy` array of three floats. -/
abbrev V3 := ℚ × ℚ × ℚ

def v3add (a b : V3) : V3 := (a.1 + b.1, a.2.1 + b.2.1, a.2.2 + b.2.2)

def v3sub (a b : V3) : V3 := (a.1 - b.1, a.2.1 - b.2.1, a.2.2 - b.2.2)

def v3smul (k : ℚ) (a : V3) : V3 := (k * a.1, k * a.2.1, k * a.2.2)

def r6v (v : V3) : V3 := (r6 v.1, r6 v.2.1, r6 v.2.2)

/-- A raised Python exception (the dynamic type is not modelled; the service
layer catches every `Exception` alike). -/
inductive PyExc
  | exc
deriving DecidableEq

/-- The parsed model: the fields of class `OBJModel`.  A tombstoned vertex
(`self.vertices[i] = None`) is `none`.  `groups` and the vertex remap are
insertion-ordered association lists, the model of Python dicts. -/
structure Model where
  vertices : List (Option V3)
  normals : List V3
  tex_coords : List (ℚ × ℚ)
  faces : List (List (ℤ × ℤ × ℤ))
  groups : List (Str × List ℕ)
  materials : List Str
  current_group : Str
  lines : List Str
deriving DecidableEq

/-- The freshly constructed `OBJModel` state before `_parse` runs. -/
def initModel : Model :=
  { vertices := [], normals := [], tex_coords := [], faces := [], groups := []
    materials := [], current_group := "default".data, lines := [] }

/-- Python `groups[name]` when present (`name in groups` test and access). -/
def lookupGroup : List (Str × List ℕ) → Str → Option (List ℕ)
  | [], _ => none
  | (k, v) :: rest, name => if k = name then some v else lookupGroup rest name

/-- Python `if name not in self.groups: self.groups[name] = []`. -/
def ensureGroup (gs : List (Str × List ℕ)) (name : Str) : List (Str × List ℕ) :=
  if (lookupGroup gs name).isSome then gs else gs ++ [(name, [])]

/-- Python `self.groups[name].append(i)` (the key is present). -/
def appendToGroup : List (Str × List ℕ) → Str → ℕ → List (Str × List ℕ)
  | [], name, i => [(name, [i])]
  | (k, v) :: rest, name, i =>
    if k = name then (k, v ++ [i]) :: rest else (k, v) :: appendToGroup rest name i

/-- One face-reference token: `v`, `v/vt`, `v//vn` or `v/vt/vn`
(`_parse`, `f` branch).  An empty vertex component yields index `0`
(CPython truthiness of `indices[0]`), empty `vt`/`vn` components yield the
absent sentinel `-1`; present components are `int(...) - 1`. -/
def parseRef (tok : Str) : Option (ℤ × ℤ × ℤ) :=
  match splitOnCharFn '/' tok with
  | [] => none
  | c0 :: restc =>
    let v? : Option ℤ := if c0 = [] then some 0 else (parseInt c0).map (fun n => n - 1)
    let vt? : Option ℤ :=
      match restc.get? 0 with
      | none => some (-1)
      | some [] => some (-1)
      | some c => (parseInt c).map (fun n => n - 1)
    let vn? : Option ℤ :=
      match restc.get? 1 with
      | none => some (-1)
      | some [] => some (-1)
      | some c => (parseInt c).map (fun n => n - 1)
    match v?, vt?, vn? with
    | some a, some b, some c => some (a, b, c)
    | _, _, _ => none

def parseRefs : List Str → Option (List (ℤ × ℤ × ℤ))
  | [] => some []
  | t :: ts =>
    match parseRef t, parseRefs ts with
    | some r, some rs => some (r :: rs)
    | _, _ => none

/-- One iteration of the line loop of `OBJModel._parse`. -/
def step (m : Model) (line : Str) : Except PyExc Model :=
  let m1 : Model := { m with lines := m.lines ++ [line] }
  let l := stripStr line
  if l = [] ∨ isPre "#".data l then
    if isPre "# GROUP:".data l then
      match splitOnCharFn ':' l with
      | _ :: seg :: _ =>
        let g := stripStr seg
        .ok { m1 with current_group := g, groups := ensureGroup m1.groups g }
      | _ => .error .exc
    else .ok m1
  else
    match splitWS l with
    | [] => .ok m1
    | cmd :: args =>
      if cmd = "v".data then
        match args with
        | a :: b :: c :: _ =>
          match parseFloat a, parseFloat b, parseFloat c with
          | some x, some y, some z =>
            .ok { m1 with
                  vertices := m1.vertices ++ [some (x, y, z)],
                  groups := appendToGroup (ensureGroup m1.groups m1.current_group)
                    m1.current_group m1.vertices.length }
          | _, _, _ => .error .exc
        | _ => .error .exc
      else if cmd = "vn".data then
        match args with
        | a :: b :: c :: _ =>
          match parseFloat a, parseFloat b, parseFloat c with
          | some x, some y, some z => .ok { m1 with normals := m1.normals ++ [(x, y, z)] }
          | _, _, _ => .error .exc
        | _ => .error .exc
      else if cmd = "vt".data then
        match args with
        | a :: b :: _ =>
          match parseFloat a, parseFloat b with
          | some u, some v => .ok { m1 with tex_coords := m1.tex_coords ++ [(u, v)] }
          | _, _ => .error .exc
        | _ => .error .exc
      else if cmd = "f".data then
        match parseRefs args with
        | some refs => .ok { m1 with faces := m1.faces ++ [refs] }
        | none => .error .exc
      else if cmd = "usemtl".data then
        match args with
        | nm :: _ => .ok { m1 with materials := m1.materials ++ [nm] }
        | [] => .ok m1
      else .ok m1

/-- The line loop of `_parse`; the first raised exception aborts it. -/
def runLines (m : Model) : List Str → Except PyExc Model
  | [] => .ok m
  | l :: ls =>
    match step m l with
    | .ok m' => runLines m' ls
    | .error e => .error e

/-- `OBJModel(obj_content)`: split on newlines and run the line loop. -/
def parse (content : Str) : Except PyExc Model :=
  runLines initModel (splitOnCharFn '\n' content)

/-! ## Transform Engine -/

/-- Loop of `apply_overall_scale`: `self.vertices[i] *= scale`.  Multiplying
a tombstoned entry (`None * scale`) raises `TypeError`, which the model
reports as an exception at the first tombstone encountered. -/
def scaleAllLoop (k : ℚ) : List (Option V3) → Except PyExc (List (Option V3))
  | [] => .ok []
  | some v :: rest =>
    match scaleAllLoop k rest with
    | .ok vs => .ok (some (v3smul k v) :: vs)
    | .error e => .error e
  | none :: _ => .error .exc

/-- `OBJModel.apply_overall_scale`. -/
def apply_overall_scale (m : Model) (k : ℚ) : Except PyExc Model :=
  match scaleAllLoop k m.vertices with
  | .ok vs => .ok { m with vertices := vs }
  | .error e => .error e

/-- `group_verts = [self.vertices[i] for i in self.groups[group_name]]`,
followed by the `np.mean` that raises `TypeError` on a `None` entry;
an out-of-range index raises `IndexError` already in the comprehension. -/
def getVerts (vs : List (Option V3)) : List ℕ → Except PyExc (List V3)
  | [] => .ok []
  | i :: rest =>
    match vs.get? i with
    | some (some v) =>
      match getVerts vs rest with
      | .ok gs => .ok (v :: gs)
      | .error e => .error e
    | some none => .error .exc
    | none => .error .exc

def vsum : List V3 → V3
  | [] => (0, 0, 0)
  | v :: rest => v3add v (vsum rest)

/-- `np.mean(group_verts, axis=0)`: componentwise sum divided by length. -/
def centroid (l : List V3) : V3 := v3smul (1 / (l.length : ℚ)) (vsum l)

/-- Scaling loop of `apply_group_scale`:
`self.vertices[idx] = centroid + (self.vertices[idx] - centroid) * scale`. -/
def scaleGroupLoop (c : V3) (k : ℚ) : List ℕ → List (Option V3) → Except PyExc (List (Option V3))
  | [], vs => .ok vs
  | i :: rest, vs =>
    match vs.get? i with
    | some (some v) => scaleGroupLoop c k rest (vs.set i (some (v3add c (v3smul k (v3sub v c)))))
    | some none => .error .exc
    | none => .error .exc

/-- `OBJModel.apply_group_scale`. -/
def apply_group_scale (m : Model) (name : Str) (k : ℚ) : Except PyExc Model :=
  match lookupGroup m.groups name with
  | none => .ok m
  | some idxs =>
    match getVerts m.vertices idxs with
    | .error e => .error e
    | .ok gverts =>
      if gverts = [] then .ok m
      else
        match scaleGroupLoop (centroid gverts) k idxs m.vertices with
        | .ok vs => .ok { m with vertices := vs }
        | .error e => .error e

/-- Python `del dict[key]`: drop the (unique) entry with that key. -/
def removeKey : List (Str × List ℕ) → Str → List (Str × List ℕ)
  | [], _ => []
  | (k, v) :: rest, name => if k = name then rest else (k, v) :: removeKey rest name

/-- Tombstoning loop of `remove_group`: `self.vertices[idx] = None` for every
index of the group (`set(...)` membership is index membership in the list;
writing `None` twice is idempotent, so iterating the list models iterating
the set).  An out-of-range index raises `IndexError`. -/
def tombLoop : List ℕ → List (Option V3) → Except PyExc (List (Option V3))
  | [], vs => .ok vs
  | i :: rest, vs => if i < vs.length then tombLoop rest (vs.set i none) else .error .exc

/-- `v_idx in remove_indices` for one vertex-reference. -/
def refHits (idxs : List ℕ) (r : ℤ × ℤ × ℤ) : Bool := idxs.any (fun i => (i : ℤ) = r.1)

/-- `OBJModel.remove_group`. -/
def remove_group (m : Model) (name : Str) : Except PyExc Model :=
  match lookupGroup m.groups name with
  | none => .ok m
  | some idxs =>
    match tombLoop idxs m.vertices with
    | .error e => .error e
    | .ok vs =>
      .ok { m with
            vertices := vs,
            faces := m.faces.filter (fun f => !(f.any (refHits idxs))),
            groups := removeKey m.groups name }

/-! ## Normal smoothing

`smooth_normals` is modelled twice over a shared accumulation core:
once inside the rational pipeline (`smooth_normals`, control flow and
exceptions faithful, unit-normalizations omitted — see its doc comment)
and once exactly over `ℝ` (`smoothNormalsReal`), against which the numeric
claims about smoothing are settled. -/

/-- Python list indexing `l[k]` with negative-index wrap-around;
`none` is an `IndexError`. -/
def pyIdx (len : ℕ) (k : ℤ) : Option ℕ :=
  if 0 ≤ k then (if k < (len : ℤ) then some k.toNat else none)
  else (if 0 ≤ k + (len : ℤ) then some (k + (len : ℤ)).toNat else none)

/-- `vertex_faces[v_idx].append(face_idx)`, creating the entry if absent
(insertion-ordered dict). -/
def vfAdd : List (ℤ × List ℕ) → ℤ → ℕ → List (ℤ × List ℕ)
  | [], v, fi => [(v, [fi])]
  | (k, l) :: rest, v, fi =>
    if k = v then (k, l ++ [fi]) :: rest else (k, l) :: vfAdd rest v fi

/-- Inner loop of the mapping build: all vertex references of one face. -/
def vfAddFace (d : List (ℤ × List ℕ)) (face : List (ℤ × ℤ × ℤ)) (fi : ℕ) : List (ℤ × List ℕ) :=
  face.foldl (fun d r => vfAdd d r.1 fi) d

def buildVFacesAux : List (List (ℤ × ℤ × ℤ)) → ℕ → List (ℤ × List ℕ) → List (ℤ × List ℕ)
  | [], _, d => d
  | f :: fs, fi, d => buildVFacesAux fs (fi + 1) (vfAddFace d f fi)

/-- The `vertex_faces` mapping of `smooth_normals`. -/
def buildVFaces (faces : List (List (ℤ × ℤ × ℤ))) : List (ℤ × List ℕ) :=
  buildVFacesAux faces 0 []

def vgadd {α : Type} [Add α] (a b : α × α × α) : α × α × α :=
  (a.1 + b.1, a.2.1 + b.2.1, a.2.2 + b.2.2)

/-- Innermost loop: `for _, _, other_n_idx in face: if other_n_idx != n_idx
and other_n_idx < len(self.normals): avg_normal += self.normals[other_n_idx];
count += 1`.  A reference below `-len` raises `IndexError`. -/
def sumOthers {α : Type} [Add α] (normals : List (α × α × α)) (nIdx : ℤ) :
    List (ℤ × ℤ × ℤ) → (α × α × α) × ℕ → Except PyExc ((α × α × α) × ℕ)
  | [], acc => .ok acc
  | (_, _, o) :: rest, (a, cnt) =>
    if o ≠ nIdx ∧ o < (normals.length : ℤ) then
      match pyIdx normals.length o with
      | some j =>
        match normals.get? j with
        | some nv => sumOthers normals nIdx rest (vgadd a nv, cnt + 1)
        | none => .error .exc
      | none => .error .exc
    else sumOthers normals nIdx rest (a, cnt)

/-- `for _, _, n_idx in face: if n_idx == i and n_idx < len(self.normals):
<run the innermost loop over the same face>`. -/
def faceEntries {α : Type} [Add α] (normals : List (α × α × α)) (i : ℕ)
    (face : List (ℤ × ℤ × ℤ)) :
    List (ℤ × ℤ × ℤ) → (α × α × α) × ℕ → Except PyExc ((α × α × α) × ℕ)
  | [], acc => .ok acc
  | (_, _, n) :: rest, acc =>
    if n = (i : ℤ) ∧ n < (normals.length : ℤ) then
      match sumOthers normals n face acc with
      | .ok acc' => faceEntries normals i face rest acc'
      | .error e => .error e
    else faceEntries normals i face rest acc

/-- `for face_idx in vertex_faces[v_idx]: face = self.faces[face_idx]; ...`. -/
def overFaceIdxs {α : Type} [Add α] (normals : List (α × α × α))
    (faces : List (List (ℤ × ℤ × ℤ))) (i : ℕ) :
    List ℕ → (α × α × α) × ℕ → Except PyExc ((α × α × α) × ℕ)
  | [], acc => .ok acc
  | fi :: rest, acc =>
    match faces.get? fi with
    | some face =>
      match faceEntries normals i face face acc with
      | .ok acc' => overFaceIdxs normals faces i rest acc'
      | .error e => .error e
    | none => .error .exc
  termination_by l => l.length

/-- `for v_idx in vertex_faces: ...` (insertion order). -/
def overVF {α : Type} [Add α] (normals : List (α × α × α))
    (faces : List (List (ℤ × ℤ × ℤ))) (i : ℕ) :
    List (ℤ × List ℕ) → (α × α × α) × ℕ → Except PyExc ((α × α × α) × ℕ)
  | [], acc => .ok acc
  | (_, fis) :: rest, acc =>
    match overFaceIdxs normals faces i fis acc with
    | .ok acc' => overVF normals faces i rest acc'
    | .error e => .error e

/-- Per-normal body of the rational pipeline model of `smooth_normals`:
the accumulation `(avg_normal, count)` and the division by `count` are
exact; the two unit normalizations (`avg_normal /= np.linalg.norm(...)`,
`blended /= np.linalg.norm(...)`) divide by a Euclidean norm, which is
irrational in general and cannot be represented in `ℚ`; they are omitted
here.  This function only feeds the service-pipeline model, whose claims
never inspect smoothed numeric values; the full semantics including both
normalizations is `smoothOneR`/`smoothNormalsReal` over `ℝ` below. -/
def smoothOneQ (normals : List V3) (faces : List (List (ℤ × ℤ × ℤ)))
    (vf : List (ℤ × List ℕ)) (factor : ℚ) (i : ℕ) (nv : V3) : Except PyExc V3 :=
  match overVF normals faces i vf (nv, 1) with
  | .error e => .error e
  | .ok (a, cnt) =>
    let a1 := v3smul (1 / (cnt : ℚ)) a
    .ok (v3add (v3smul (1 - factor) nv) (v3smul factor a1))

def smoothAllQ (normals : List V3) (faces : List (List (ℤ × ℤ × ℤ)))
    (vf : List (ℤ × List ℕ)) (factor : ℚ) : List V3 → ℕ → Except PyExc (List V3)
  | [], _ => .ok []
  | nv :: rest, i =>
    match smoothOneQ normals faces vf factor i nv with
    | .ok r =>
      match smoothAllQ normals faces vf factor rest (i + 1) with
      | .ok rs => .ok (r :: rs)
      | .error e => .error e
    | .error e => .error e

/-- `OBJModel.smooth_normals` at the pipeline level (see `smoothOneQ`). -/
def smooth_normals (m : Model) (factor : ℚ) : Except PyExc Model :=
  if m.normals = [] ∨ factor ≤ 0 then .ok m
  else
    match smoothAllQ m.normals m.faces (buildVFaces m.faces) factor m.normals 0 with
    | .ok ns => .ok { m with normals := ns }
    | .error e => .error e

abbrev V3R := ℝ × ℝ × ℝ

noncomputable def vrsmul (k : ℝ) (a : V3R) : V3R := (k * a.1, k * a.2.1, k * a.2.2)

noncomputable def vrdiv (a : V3R) (c : ℝ) : V3R := (a.1 / c, a.2.1 / c, a.2.2 / c)

/-- `np.linalg.norm`, the Euclidean norm. -/
noncomputable def normR (v : V3R) : ℝ := Real.sqrt (v.1 ^ 2 + v.2.1 ^ 2 + v.2.2 ^ 2)

/-- Per-normal body of `smooth_normals`, exact over `ℝ`:
`avg_normal /= count; avg_normal /= norm(avg_normal);
blended = (1 - factor) * normal + factor * avg_normal;
blended /= norm(blended)`.  (Division by a zero norm, a NaN in numpy,
is division by zero in `ℝ`, yielding the zero vector.) -/
noncomputable def smoothOneR (normals : List V3R) (faces : List (List (ℤ × ℤ × ℤ)))
    (vf : List (ℤ × List ℕ)) (factor : ℝ) (i : ℕ) (nv : V3R) : Except PyExc V3R :=
  match overVF normals faces i vf (nv, 1) with
  | .error e => .error e
  | .ok (a, cnt) =>
    let a1 := vrdiv a (cnt : ℝ)
    let a2 := vrdiv a1 (normR a1)
    let b := vgadd (vrsmul (1 - factor) nv) (vrsmul factor a2)
    .ok (vrdiv b (normR b))

noncomputable def smoothAllR (normals : List V3R) (faces : List (List (ℤ × ℤ × ℤ)))
    (vf : List (ℤ × List ℕ)) (factor : ℝ) : List V3R → ℕ → Except PyExc (List V3R)
  | [], _ => .ok []
  | nv :: rest, i =>
    match smoothOneR normals faces vf factor i nv with
    | .ok r =>
      match smoothAllR normals faces vf factor rest (i + 1) with
      | .ok rs => .ok (r :: rs)
      | .error e => .error e
    | .error e => .error e

/-- `OBJModel.smooth_normals`, exact real-valued semantics on the normals
and faces of the model. -/
noncomputable def smoothNormalsReal (normals : List V3R)
    (faces : List (List (ℤ × ℤ × ℤ))) (factor : ℝ) : Except PyExc (List V3R) :=
  if normals = [] ∨ factor ≤ 0 then .ok normals
  else smoothAllR normals faces (buildVFaces faces) factor normals 0

/-! ## Serializer (`OBJModel.to_obj_string`) -/

/-- `f"v {v[0]:.6f} {v[1]:.6f} {v[2]:.6f}"`. -/
def vLine (v : V3) : Str := "v ".data ++ fmt6 v.1 ++ ' ' :: fmt6 v.2.1 ++ ' ' :: fmt6 v.2.2

/-- `f"vn {n[0]:.6f} {n[1]:.6f} {n[2]:.6f}"`. -/
def vnLine (v : V3) : Str := "vn ".data ++ fmt6 v.1 ++ ' ' :: fmt6 v.2.1 ++ ' ' :: fmt6 v.2.2

/-- `f"vt {vt[0]:.6f} {vt[1]:.6f}"`. -/
def vtLine (t : ℚ × ℚ) : Str := "vt ".data ++ fmt6 t.1 ++ ' ' :: fmt6 t.2

/-- Inner vertex-emission loop of `to_obj_string`: skip tombstones, emit a
`v` line for each live vertex and record `vertex_remap[old_idx] = new_idx`.
Indexing `self.vertices[old_idx]` out of range raises `IndexError`. -/
def emitGroupVerts (verts : List (Option V3)) :
    List ℕ → List Str → List (ℕ × ℕ) → ℕ → Except PyExc (List Str × List (ℕ × ℕ) × ℕ)
  | [], ls, remap, nidx => .ok (ls, remap, nidx)
  | oldIdx :: rest, ls, remap, nidx =>
    match verts.get? oldIdx with
    | none => .error .exc
    | some none => emitGroupVerts verts rest ls remap nidx
    | some (some v) =>
      emitGroupVerts verts rest (ls ++ [vLine v]) (remap ++ [(oldIdx, nidx)]) (nidx + 1)

/-- Outer vertex-emission loop: for each group, a `# GROUP:` marker line
followed by its live vertices. -/
def emitGroups (verts : List (Option V3)) :
    List (Str × List ℕ) → List Str × List (ℕ × ℕ) × ℕ → Except PyExc (List Str × List (ℕ × ℕ) × ℕ)
  | [], acc => .ok acc
  | (g, idxs) :: rest, (ls, remap, nidx) =>
    match emitGroupVerts verts idxs (ls ++ ["# GROUP:".data ++ g]) remap nidx with
    | .ok acc' => emitGroups verts rest acc'
    | .error e => .error e

/-- `vertex_remap` lookup.  The keys written are pairwise distinct in every
state the code constructs, so first-match lookup coincides with the
last-write-wins dict. -/
def lookupRemap : List (ℕ × ℕ) → ℕ → Option ℕ
  | [], _ => none
  | (k, v) :: rest, i => if k = i then some v else lookupRemap rest i

/-- `v_idx not in vertex_remap` / `vertex_remap[v_idx]` for a face
reference index (dict keys are naturals, so negatives are never present). -/
def lookupRemapZ (remap : List (ℕ × ℕ)) (v : ℤ) : Option ℕ :=
  if 0 ≤ v then lookupRemap remap v.toNat else none

/-- One rewritten face-reference token: `new/vt+1/vn+1`, `new//vn+1`,
`new/vt+1` or `new`, by the presence tests `vt_idx >= 0` / `vn_idx >= 0`. -/
def refTok (nv : ℕ) (vt vn : ℤ) : Str :=
  if 0 ≤ vt ∧ 0 ≤ vn then
    renderNat nv ++ '/' :: renderNat (vt + 1).toNat ++ '/' :: renderNat (vn + 1).toNat
  else if 0 ≤ vn then renderNat nv ++ '/' :: '/' :: renderNat (vn + 1).toNat
  else if 0 ≤ vt then renderNat nv ++ '/' :: renderNat (vt + 1).toNat
  else renderNat nv

/-- The `face_str` accumulation loop: references whose vertex index is not
in the remap are skipped (`continue`), the others append their token. -/
def faceStrLoop (remap : List (ℕ × ℕ)) : List (ℤ × ℤ × ℤ) → Str → Str
  | [], acc => acc
  | (v, vt, vn) :: rest, acc =>
    match lookupRemapZ remap v with
    | none => faceStrLoop remap rest acc
    | some nv => faceStrLoop remap rest (acc ++ ' ' :: refTok nv vt vn)

/-- One face of the face-emission loop: build `face_str` starting from
`"f"` and keep the line only `if len(face_str.split()) > 3`. -/
def emitFace (remap : List (ℕ × ℕ)) (face : List (ℤ × ℤ × ℤ)) : Option Str :=
  let s := faceStrLoop remap face "f".data
  if 3 < (splitWS s).length then some s else none

def emitFaces (remap : List (ℕ × ℕ)) : List (List (ℤ × ℤ × ℤ)) → List Str
  | [] => []
  | f :: rest =>
    match emitFace remap f with
    | some s => s :: emitFaces remap rest
    | none => emitFaces remap rest

/-- `OBJModel.to_obj_string`, as the list of output lines. -/
def toObjLines (m : Model) : Except PyExc (List Str) :=
  match emitGroups m.vertices m.groups
      (["# Generated by Procedural 3D Generator".data, "o GeneratedModel".data, []], [], 1) with
  | .error e => .error e
  | .ok (ls, remap, _) =>
    .ok (ls ++ [[]] ++ m.normals.map vnLine ++ [[]] ++ m.tex_coords.map vtLine ++ [[]] ++
      emitFaces remap m.faces)

/-- `OBJModel.to_obj_string`: the lines joined by `'\n'`. -/
def to_obj_string (m : Model) : Except PyExc Str :=
  match toObjLines m with
  | .ok ls => .ok (joinNL ls)
  | .error e => .error e

/-! ## Modifier dispatch (`OBJService.apply_modifiers`) -/

/-- A modifier value (`Any` in the Python signature): a JSON-style number,
boolean or string. -/
inductive MVal
  | num (q : ℚ)
  | boolean (b : Bool)
  | str (s : Str)
deriving DecidableEq

/-- Python `float(value)`: numbers pass through, booleans become 0/1 and
strings are parsed (raising on non-numeric text). -/
def toFloatM : MVal → Except PyExc ℚ
  | .num q => .ok q
  | .boolean b => .ok (if b then 1 else 0)
  | .str s =>
    match parseFloat (stripStr s) with
    | some q => .ok q
    | none => .error .exc

/-- One iteration of the modifier loop of `OBJService.apply_modifiers`. -/
def dispatchOne (m : Model) (p : Str × MVal) : Except PyExc Model :=
  let name := p.1
  let v := p.2
  if name = "overall_size".data then
    match toFloatM v with
    | .ok k => apply_overall_scale m k
    | .error e => .error e
  else if isSuf "_size".data name ∧ name ≠ "overall_size".data then
    match toFloatM v with
    | .ok k => apply_group_scale m (replaceAll name "_size".data []) k
    | .error e => .error e
  else if name = "smoothness".data then
    match toFloatM v with
    | .ok k => smooth_normals m (k / 100)
    | .error e => .error e
  else if name = "seedless".data ∧ v = .boolean true then
    remove_group m "seed".data
  else
    match v with
    | .boolean b =>
      if !b then
        remove_group m (replaceAll (replaceAll name "_visible".data []) "has_".data [])
      else .ok m
    | _ => .ok m

/-- The modifier loop, in mapping iteration order. -/
def runMods (m : Model) : List (Str × MVal) → Except PyExc Model
  | [] => .ok m
  | p :: rest =>
    match dispatchOne m p with
    | .ok m' => runMods m' rest
    | .error e => .error e

/-- The body of the `try:` block of `apply_modifiers`:
parse, apply each modifier, serialize. -/
def pipelineOf (content : Str) (mods : List (Str × MVal)) : Except PyExc Str :=
  match parse content with
  | .error e => .error e
  | .ok m =>
    match runMods m mods with
    | .error e => .error e
    | .ok m' => to_obj_string m'

/-- `OBJService.apply_modifiers`: any exception is caught and the original
content returned unchanged. -/
def apply_modifiers (content : Str) (mods : List (Str × MVal)) : Str :=
  match pipelineOf content mods with
  | .ok s => s
  | .error _ => content

/-! ## Derived observations used by the claims -/

/-- Number of live (non-tombstoned) vertices. -/
def liveCount (m : Model) : ℕ := (m.vertices.filterMap id).length

/-- The live vertex positions, in storage order. -/
def posList (m : Model) : List V3 := m.vertices.filterMap id

/-- A face-reference vertex index that is tombstoned: in range, but its
vertex slot holds the `None` placeholder. -/
def IsTomb (m : Model) (v : ℤ) : Prop :=
  0 ≤ v ∧ v < (m.vertices.length : ℤ) ∧ m.vertices.get? v.toNat = some none

instance (m : Model) (v : ℤ) : Decidable (IsTomb m v) := by
  unfold IsTomb
  infer_instance

/-! ## Predicates used in claim statements -/

/-- All group index lists concatenated, in declaration order. -/
def flatGroups (gs : List (Str × List ℕ)) : List ℕ := (gs.map Prod.snd).flatten

/-- A group name as the parser constructs it: already stripped, and free of
`':'` and newline characters. -/
def NameWF (g : Str) : Prop := stripStr g = g ∧ ':' ∉ g ∧ '\n' ∉ g

/-- The structural invariant `_parse` establishes: every vertex live, the
group lists a permutation of the vertex index range, and all group names
(and the current group) well formed. -/
def ModelWF (m : Model) : Prop :=
  (∀ v ∈ m.vertices, v ≠ none) ∧
  List.Perm (flatGroups m.groups) (List.range m.vertices.length) ∧
  (∀ p ∈ m.groups, NameWF p.1) ∧ NameWF m.current_group

/-- A "valid OBJ input" in the sense of the spec: every parsed face has at
least three vertex references and each reference resolves to a stored
vertex index. -/
def FacesValid (m : Model) : Prop :=
  ∀ f ∈ m.faces, 3 ≤ f.length ∧ ∀ r ∈ f, 0 ≤ r.1 ∧ r.1 < (m.vertices.length : ℤ)

/-- Well-formedness of one group's index list, as guaranteed for every
model the engine itself constructs: indices pairwise distinct, in range,
and pointing at live vertices. -/
def GroupIdxsWF (m : Model) (idxs : List ℕ) : Prop :=
  idxs.Nodup ∧ ∀ i ∈ idxs, ∃ v, m.vertices.get? i = some (some v)

/-- A `v`-directive line that CPython's `_parse` raises on: fewer than
three coordinate fields, or a coordinate field that is not numeric. -/
def BadVLine (l : Str) : Prop :=
  ∃ args, splitWS (stripStr l) = "v".data :: args ∧
    (args.length < 3 ∨ ∃ a ∈ args.take 3, parseFloat a = none)

/-- Centroid of the live vertices of group `name` (the quantity §4.2 calls
"the arithmetic centroid of the named group's live vertices"). -/
def groupCentroid (m : Model) (name : Str) : V3 :=
  centroid (((lookupGroup m.groups name).getD []).filterMap (fun i => (m.vertices.get? i).getD none))

/-- Concatenation `" " + tok` for each token, the shape `face_str` takes
after its `"f"` prefix. -/
def catToks : List Str → Str
  | [] => []
  | t :: ts => ' ' :: t ++ catToks ts

/-- The rewritten tokens of the references of `face` that survive the
remap lookup, in order. -/
def faceToks (remap : List (ℕ × ℕ)) (face : List (ℤ × ℤ × ℤ)) : List Str :=
  face.filterMap (fun r => (lookupRemapZ remap r.1).map (fun nv => refTok nv r.2.1 r.2.2))

/-- Normal index `i` is referenced by at least one face. -/
def NRef (faces : List (List (ℤ × ℤ × ℤ))) (i : ℕ) : Prop :=
  ∃ f ∈ faces, ∃ r ∈ f, r.2.2 = (i : ℤ)

/-- The (live) position stored at index `i`, with junk defaults for the
out-of-range and tombstone cases never hit under the stated hypotheses. -/
def valAt (vs : List (Option V3)) (i : ℕ) : V3 := ((vs.get? i).getD none).getD (0, 0, 0)

/-- The serializer's output lines for one group: its marker followed by one
`v` line per (live) vertex index. -/
def groupBlock (vs : List (Option V3)) (p : Str × List ℕ) : List Str :=
  ("# GROUP:".data ++ p.1) :: p.2.map (fun i => vLine (valAt vs i))

/-- The serializer's vertex section: all group blocks in declaration order. -/
def groupBlocks (vs : List (Option V3)) (gs : List (Str × List ℕ)) : List Str :=
  (gs.map (groupBlock vs)).flatten

deriving instance DecidableEq for Except

/-- A small concrete model, the result of parsing `"v 1 2 3\nf 1 1 1"`,
used to instantiate conditional theorems at a concrete input. -/
def mW1 : Model :=
  { vertices := [some (1, 2, 3)]
    normals := []
    tex_coords := []
    faces := [[(0, -1, -1), (0, -1, -1), (0, -1, -1)]]
    groups := [("default".data, [0])]
    materials := []
    current_group := "default".data
    lines := ["v 1 2 3".data, "f 1 1 1".data] }

/-- The model produced by parsing `"v 1 2 3 4"` (a `v` directive with one
extra argument), used to exhibit the parser's acceptance of over-long
vertex lines. -/
def mW2 : Model :=
  { vertices := [some (1, 2, 3)]
    normals := []
    tex_coords := []
    faces := []
    groups := [("default".data, [0])]
    materials := []
    current_group := "default".data
    lines := ["v 1 2 3 4".data] }

/-- A three-vertex model with two groups and two faces, used to exercise
`remove_group` at a concrete input. -/
def mW3 : Model :=
  { vertices := [some (0, 0, 0), some (1, 0, 0), some (2, 0, 0)]
    normals := []
    tex_coords := []
    faces := [[(0, -1, -1), (1, -1, -1), (2, -1, -1)],
      [(2, -1, -1), (2, -1, -1), (2, -1, -1)]]
    groups := [("g".data, [0, 1]), ("h".data, [2])]
    materials := []
    current_group := "default".data
    lines := [] }

/-- The model parsed from `"# GROUP:g\nv 1 2 3\n# GROUP:h\nv 4 5 6"`. -/
def mW4 : Model :=
  { vertices := [some (1, 2, 3), some (4, 5, 6)]
    normals := []
    tex_coords := []
    faces := []
    groups := [("g".data, [0]), ("h".data, [1])]
    materials := []
    current_group := "h".data
    lines := ["# GROUP:g".data, "v 1 2 3".data, "# GROUP:h".data, "v 4 5 6".data] }

/-- `mW4` after `remove_group "g"`: vertex 0 is tombstoned and vertex 1 is
still live. -/
def mW4r : Model :=
  { vertices := [none, some (4, 5, 6)]
    normals := []
    tex_coords := []
    faces := []
    groups := [("h".data, [1])]
    materials := []
    current_group := "h".data
    lines := ["# GROUP:g".data, "v 1 2 3".data, "# GROUP:h".data, "v 4 5 6".data] }

/-- The model parsed from a file whose single face references a vertex
(`5`) that does not exist. -/
def mW5 : Model :=
  { vertices := [some (0, 0, 0), some (1, 0, 0), some (2, 0, 0), some (3, 0, 0)]
    normals := []
    tex_coords := []
    faces := [[(0, -1, -1), (1, -1, -1), (2, -1, -1), (4, -1, -1)]]
    groups := [("default".data, [0, 1, 2, 3])]
    materials := []
    current_group := "default".data
    lines := ["v 0 0 0".data, "v 1 0 0".data, "v 2 0 0".data, "v 3 0 0".data,
      "f 1 2 3 5".data] }

/-- A model whose only group is literally named `"_size"`, exposing the
difference between suffix-stripping and replace-all on modifier keys. -/
def mW8 : Model :=
  { vertices := [some (0, 0, 0), some (2, 0, 0)]
    normals := []
    tex_coords := []
    faces := []
    groups := [("_size".data, [0, 1])]
    materials := []
    current_group := "default".data
    lines := [] }

/-- The model parsed from the single unrecognized directive `"s 1"`. -/
def mW9 : Model :=
  { vertices := []
    normals := []
    tex_coords := []
    faces := []
    groups := []
    materials := []
    current_group := "default".data
    lines := ["s 1".data] }

/-- The exact lines `to_obj_string` emits for `mW9`. -/
def outW9 : List Str :=
  ["# Generated by Procedural 3D Generator".data, "o GeneratedModel".data,
    [], [], [], []]

/-! # Theorems

String-utility lemmas first, then parser/serializer lemmas, then the claim
theorems `C1_*` … `C10_*`. -/

theorem renderNatFuel_congr : ∀ f1 n f2, n < f1 → n < f2 →
    renderNatFuel f1 n = renderNatFuel f2 n := by
  intro f1
  induction f1 with
  | zero =>
    intro n f2 h1
    omega
  | succ f ih =>
    intro n f2 h1 h2
    cases f2 with
    | zero => omega
    | succ g =>
      show (if n < 10 then [Nat.digitChar n]
          else renderNatFuel f (n / 10) ++ [Nat.digitChar (n % 10)]) =
        (if n < 10 then [Nat.digitChar n]
          else renderNatFuel g (n / 10) ++ [Nat.digitChar (n % 10)])
      by_cases hn : n < 10
      · rw [if_pos hn, if_pos hn]
      · rw [if_neg hn, if_neg hn, ih (n / 10) g (by omega) (by omega)]

theorem renderNat_eq (n : ℕ) : renderNat n =
    if n < 10 then [Nat.digitChar n]
    else renderNat (n / 10) ++ [Nat.digitChar (n % 10)] := by
  show renderNatFuel (n + 1) n = _
  by_cases hn : n < 10
  · rw [if_pos hn]
    show (if n < 10 then _ else _) = _
    rw [if_pos hn]
  · rw [if_neg hn]
    show (if n < 10 then _ else _) = _
    rw [if_neg hn]
    rw [renderNatFuel_congr n (n / 10) (n / 10 + 1) (by omega) (by omega)]
    rfl


theorem splitOnCharFn_ne_nil (c : Char) (s : Str) : splitOnCharFn c s ≠ [] := by
  induction s with
  | nil => simp [splitOnCharFn]
  | cons d rest ih =>
    simp only [splitOnCharFn]
    split
    · simp
    · cases h : splitOnCharFn c rest <;> simp

theorem not_mem_splitOnCharFn (c : Char) (s : Str) :
    ∀ p ∈ splitOnCharFn c s, c ∉ p := by
  induction s with
  | nil =>
    intro p hp
    simp [splitOnCharFn] at hp
    simp [hp]
  | cons d rest ih =>
    intro p hp
    simp only [splitOnCharFn] at hp
    by_cases hdc : d = c
    · rw [if_pos hdc] at hp
      rcases List.mem_cons.mp hp with h | h
      · simp [h]
      · exact ih p h
    · rw [if_neg hdc] at hp
      cases hsp : splitOnCharFn c rest with
      | nil => exact absurd hsp (splitOnCharFn_ne_nil c rest)
      | cons t ts =>
        rw [hsp] at hp
        rcases List.mem_cons.mp hp with h | h
        · subst h
          intro hmem
          rcases List.mem_cons.mp hmem with h1 | h1
          · exact hdc h1.symm
          · exact ih t (by rw [hsp]; exact List.mem_cons_self t ts) h1
        · exact ih p (by rw [hsp]; exact List.mem_cons_of_mem t h)

theorem mem_of_mem_splitOnCharFn {c : Char} {s : Str} :
    ∀ p ∈ splitOnCharFn c s, ∀ x ∈ p, x ∈ s := by
  induction s with
  | nil =>
    intro p hp
    simp [splitOnCharFn] at hp
    simp [hp]
  | cons d rest ih =>
    intro p hp x hx
    simp only [splitOnCharFn] at hp
    by_cases hdc : d = c
    · rw [if_pos hdc] at hp
      rcases List.mem_cons.mp hp with h | h
      · simp [h] at hx
      · exact List.mem_cons_of_mem d (ih p h x hx)
    · rw [if_neg hdc] at hp
      cases hsp : splitOnCharFn c rest with
      | nil => exact absurd hsp (splitOnCharFn_ne_nil c rest)
      | cons t ts =>
        rw [hsp] at hp
        rcases List.mem_cons.mp hp with h | h
        · subst h
          rcases List.mem_cons.mp hx with h1 | h1
          · simp [h1]
          · exact List.mem_cons_of_mem d
              (ih t (by rw [hsp]; exact List.mem_cons_self t ts) x h1)
        · exact List.mem_cons_of_mem d (ih p (by rw [hsp]; exact List.mem_cons_of_mem t h) x hx)

theorem splitOnCharFn_of_not_mem {c : Char} {s : Str} (h : c ∉ s) :
    splitOnCharFn c s = [s] := by
  induction s with
  | nil => simp [splitOnCharFn]
  | cons d rest ih =>
    have hdc : d ≠ c := fun hh => h (by simp [hh])
    have hrest : c ∉ rest := fun hh => h (List.mem_cons_of_mem d hh)
    simp only [splitOnCharFn, if_neg hdc, ih hrest]

theorem splitOnCharFn_append {c : Char} {a : Str} (b : Str) (h : c ∉ a) :
    splitOnCharFn c (a ++ c :: b) = a :: splitOnCharFn c b := by
  induction a with
  | nil => simp [splitOnCharFn]
  | cons d as ih =>
    have hdc : d ≠ c := fun hh => h (by simp [hh])
    have has : c ∉ as := fun hh => h (List.mem_cons_of_mem d hh)
    simp only [List.cons_append, splitOnCharFn, if_neg hdc, List.append_eq, ih has]

theorem dropWhile_head?_not {α : Type} {p : α → Bool} {l : List α} :
    ∀ c, (l.dropWhile p).head? = some c → p c = false := by
  induction l with
  | nil => intro c h; simp at h
  | cons a l ih =>
    intro c h
    rw [List.dropWhile_cons] at h
    by_cases hp : p a = true
    · rw [if_pos hp] at h
      exact ih c h
    · rw [if_neg hp] at h
      simp at h
      subst h
      simpa using hp

theorem mem_stripStr {s : Str} : ∀ x ∈ stripStr s, x ∈ s := by
  intro x hx
  unfold stripStr at hx
  rw [List.mem_reverse] at hx
  have h1 := (List.dropWhile_sublist (l := (s.dropWhile Char.isWhitespace).reverse)
    Char.isWhitespace).mem hx
  rw [List.mem_reverse] at h1
  exact (List.dropWhile_sublist Char.isWhitespace).mem h1

theorem stripStr_eq_self {s : Str} (h1 : ∀ c, s.head? = some c → c.isWhitespace = false)
    (h2 : ∀ c, s.getLast? = some c → c.isWhitespace = false) : stripStr s = s := by
  unfold stripStr
  have hd : s.dropWhile Char.isWhitespace = s := by
    cases s with
    | nil => rfl
    | cons a l =>
      rw [List.dropWhile_cons]
      simp [h1 a rfl]
  rw [hd]
  have hrev : s.reverse.dropWhile Char.isWhitespace = s.reverse := by
    cases hr : s.reverse with
    | nil => rfl
    | cons b t =>
      rw [List.dropWhile_cons]
      have hb : s.getLast? = some b := by
        rw [← List.head?_reverse, hr]
        rfl
      simp [h2 b hb]
  rw [hrev, List.reverse_reverse]

theorem getLast?_of_suffix {α : Type} {d l : List α} (h : d.IsSuffix l) (hne : d ≠ []) :
    d.getLast? = l.getLast? := by
  obtain ⟨t, rfl⟩ := h
  rw [List.getLast?_append_of_ne_nil t hne]

theorem stripStr_head?_not {s : Str} : ∀ c, (stripStr s).head? = some c →
    c.isWhitespace = false := by
  intro c hc
  unfold stripStr at hc
  set u := s.dropWhile Char.isWhitespace with hu
  set d := u.reverse.dropWhile Char.isWhitespace with hd
  have hdne : d ≠ [] := by
    intro h
    rw [h] at hc
    simp at hc
  have h1 : d.reverse.head? = d.getLast? := by
    rw [List.head?_reverse]
  rw [h1] at hc
  have h2 : d.getLast? = u.reverse.getLast? :=
    getLast?_of_suffix (List.dropWhile_suffix Char.isWhitespace) hdne
  rw [h2, List.getLast?_reverse] at hc
  exact dropWhile_head?_not c hc

theorem stripStr_getLast?_not {s : Str} : ∀ c, (stripStr s).getLast? = some c →
    c.isWhitespace = false := by
  intro c hc
  unfold stripStr at hc
  rw [List.getLast?_reverse] at hc
  exact dropWhile_head?_not c hc

theorem stripStr_idem (s : Str) : stripStr (stripStr s) = stripStr s :=
  stripStr_eq_self stripStr_head?_not stripStr_getLast?_not

theorem splitWSAux_tok {t : Str} (ht : ∀ c ∈ t, c.isWhitespace = false) :
    ∀ (s cur : Str), splitWSAux (t ++ s) cur = splitWSAux s (t.reverse ++ cur) := by
  induction t with
  | nil => intro s cur; simp
  | cons c ts ih =>
    intro s cur
    have hc : c.isWhitespace = false := ht c (by simp)
    simp only [List.cons_append, splitWSAux, hc, Bool.false_eq_true, if_false, List.append_eq]
    rw [ih (fun x hx => ht x (by simp [hx])) s (c :: cur)]
    simp

theorem splitWSAux_space {rest cur : Str} (h : cur ≠ []) :
    splitWSAux (' ' :: rest) cur = cur.reverse :: splitWSAux rest [] := by
  simp only [splitWSAux]
  rw [if_pos (by decide), if_neg h]

theorem splitWS_token_space (t rest : Str) (h1 : t ≠ [])
    (h2 : ∀ c ∈ t, c.isWhitespace = false) :
    splitWS (t ++ ' ' :: rest) = t :: splitWS rest := by
  unfold splitWS
  rw [splitWSAux_tok h2, List.append_nil,
    splitWSAux_space (by simpa using h1), List.reverse_reverse]

theorem splitWS_token (t : Str) (h1 : t ≠ []) (h2 : ∀ c ∈ t, c.isWhitespace = false) :
    splitWS t = [t] := by
  unfold splitWS
  rw [← List.append_nil t, splitWSAux_tok h2]
  simp only [splitWSAux, List.append_nil]
  rw [if_neg (by simpa using h1), List.reverse_reverse]

theorem digitChar_mem (n : ℕ) (h : n < 10) :
    Nat.digitChar n ∈ ['0', '1', '2', '3', '4', '5', '6', '7', '8', '9'] := by
  interval_cases n <;> decide

theorem renderNat_mem_digits (n : ℕ) :
    ∀ c ∈ renderNat n, c ∈ ['0', '1', '2', '3', '4', '5', '6', '7', '8', '9'] := by
  induction n using Nat.strong_induction_on with
  | _ n ih =>
    rw [renderNat_eq]
    split
    · intro c hc
      simp only [List.mem_singleton] at hc
      subst hc
      exact digitChar_mem n (by assumption)
    · intro c hc
      rcases List.mem_append.mp hc with h | h
      · exact ih (n / 10) (Nat.div_lt_self (by omega) (by omega)) c h
      · simp only [List.mem_singleton] at h
        subst h
        exact digitChar_mem _ (Nat.mod_lt _ (by omega))

theorem renderNat_ne_nil (n : ℕ) : renderNat n ≠ [] := by
  rw [renderNat_eq]
  split <;> simp

theorem digit_not_ws {c : Char}
    (h : c ∈ ['0', '1', '2', '3', '4', '5', '6', '7', '8', '9']) :
    c.isWhitespace = false := by
  fin_cases h <;> decide

theorem digitVal_digitChar (n : ℕ) (h : n < 10) : digitVal (Nat.digitChar n) = some n := by
  interval_cases n <;> decide

theorem parseNatAcc_append {s : Str} {acc r : ℕ} (t : Str)
    (h : parseNatAcc s acc = some r) : parseNatAcc (s ++ t) acc = parseNatAcc t r := by
  induction s generalizing acc with
  | nil =>
    simp only [parseNatAcc] at h
    cases h
    simp
  | cons c cs ih =>
    simp only [parseNatAcc] at h ⊢
    cases hd : digitVal c with
    | none => rw [hd] at h; exact absurd h (by simp)
    | some d =>
      rw [hd] at h
      simp only [List.cons_append, parseNatAcc, hd]
      exact ih h

theorem parseNatAcc_renderNat (n : ℕ) : ∀ acc : ℕ,
    parseNatAcc (renderNat n) acc = some (acc * 10 ^ (renderNat n).length + n) := by
  induction n using Nat.strong_induction_on with
  | _ n ih =>
    intro acc
    rw [renderNat_eq]
    split
    · rename_i h
      simp only [parseNatAcc, digitVal_digitChar n h, List.length_singleton]
      norm_num
    · rename_i h
      have hlt : n / 10 < n := Nat.div_lt_self (by omega) (by omega)
      rw [parseNatAcc_append _ (ih (n / 10) hlt acc)]
      simp only [parseNatAcc, digitVal_digitChar (n % 10) (Nat.mod_lt _ (by omega))]
      congr 1
      simp only [List.length_append, List.length_singleton]
      rw [pow_succ]
      generalize (10 : ℕ) ^ (renderNat (n / 10)).length = K
      ring_nf
      omega

theorem parseNat_renderNat (n : ℕ) : parseNat (renderNat n) = some n := by
  unfold parseNat
  cases hr : renderNat n with
  | nil => exact absurd hr (renderNat_ne_nil n)
  | cons c cs =>
    have hacc := parseNatAcc_renderNat n 0
    rw [hr] at hacc
    simpa using hacc

theorem parseNatAcc_zeros (k : ℕ) (s : Str) :
    parseNatAcc (List.replicate k '0' ++ s) 0 = parseNatAcc s 0 := by
  induction k with
  | zero => simp
  | succ k ih =>
    rw [List.replicate_succ, List.cons_append]
    simp only [parseNatAcc, show digitVal '0' = some 0 by decide]
    simpa using ih

theorem parseNat_padZeros (k : ℕ) {s : Str} (h : s ≠ []) :
    parseNat (padZeros k s) = parseNat s := by
  unfold padZeros parseNat
  cases hk : k - s.length with
  | zero =>
    simp only [List.replicate_zero, List.nil_append]
  | succ j =>
    rw [List.replicate_succ, List.cons_append]
    cases hs : s with
    | nil => exact absurd hs h
    | cons c cs =>
      rw [← hs, ← List.cons_append, ← List.replicate_succ, parseNatAcc_zeros]
      cases hs2 : s with
      | nil => exact absurd hs2 h
      | cons d ds => rfl

theorem renderNat_length_le {n k : ℕ} (hn : n < 10 ^ k) (hk : 1 ≤ k) :
    (renderNat n).length ≤ k := by
  induction n using Nat.strong_induction_on generalizing k with
  | _ n ih =>
    rw [renderNat_eq]
    split
    · simpa using hk
    · rename_i h
      have hk2 : 2 ≤ k := by
        by_contra hc
        have : k = 1 := by omega
        subst this
        simp at hn
        omega
      have hdiv : n / 10 < 10 ^ (k - 1) := by
        have h10 : 10 ^ k = 10 ^ (k - 1) * 10 := by
          rw [← pow_succ]
          congr 1
          omega
        rw [h10] at hn
        exact Nat.div_lt_of_lt_mul (by omega)
      have := ih (n / 10) (Nat.div_lt_self (by omega) (by omega)) hdiv (by omega)
      simp only [List.length_append, List.length_singleton]
      omega

theorem digits_nice {c : Char}
    (h : c ∈ ['0', '1', '2', '3', '4', '5', '6', '7', '8', '9']) :
    c.isWhitespace = false ∧ c ≠ '/' ∧ c ≠ '.' ∧ c ≠ ':' ∧ c ≠ '\n' ∧
      c ≠ '-' ∧ c ≠ '+' ∧ c ≠ '#' := by
  fin_cases h <;> decide


theorem fmtFixed6_mem (n : ℤ) : ∀ c ∈ fmtFixed6 n,
    c ∈ '-' :: '.' :: ['0', '1', '2', '3', '4', '5', '6', '7', '8', '9'] := by
  intro c hc
  unfold fmtFixed6 padZeros at hc
  rcases List.mem_append.mp hc with h | h
  · rcases List.mem_append.mp h with h1 | h1
    · split at h1
      · simp only [List.mem_singleton] at h1
        simp [h1]
      · simp at h1
    · exact List.mem_cons_of_mem _ (List.mem_cons_of_mem _ (renderNat_mem_digits _ c h1))
  · rcases List.mem_cons.mp h with h1 | h1
    · simp [h1]
    · rcases List.mem_append.mp h1 with h2 | h2
      · have hc0 : c = '0' := List.eq_of_mem_replicate h2
        simp [hc0]
      · exact List.mem_cons_of_mem _ (List.mem_cons_of_mem _ (renderNat_mem_digits _ c h2))

theorem fmtChars_nice {c : Char}
    (h : c ∈ '-' :: '.' :: ['0', '1', '2', '3', '4', '5', '6', '7', '8', '9']) :
    c.isWhitespace = false ∧ c ≠ ':' ∧ c ≠ '\n' ∧ c ≠ '#' := by
  fin_cases h <;> decide

theorem fmt6_not_ws {q : ℚ} : ∀ c ∈ fmt6 q, c.isWhitespace = false :=
  fun c hc => (fmtChars_nice (fmtFixed6_mem _ c hc)).1

theorem fmt6_ne_nil (q : ℚ) : fmt6 q ≠ [] := by
  unfold fmt6 fmtFixed6
  intro h
  have hlen := congrArg List.length h
  simp at hlen

theorem not_nl_fmt6 (q : ℚ) : '\n' ∉ fmt6 q :=
  fun h => absurd rfl (fmtChars_nice (fmtFixed6_mem _ _ h)).2.2.1

theorem parseFloat_neg_cons (rest : Str) :
    parseFloat ('-' :: rest) = (parseFloatCore rest).map Neg.neg := rfl

theorem parseFloat_eq_core_of_digit {c : Char} {cs : Str}
    (hc : c ∈ ['0', '1', '2', '3', '4', '5', '6', '7', '8', '9']) :
    parseFloat (c :: cs) = parseFloatCore (c :: cs) := by
  fin_cases hc <;> rfl

theorem parseInt_of_digit {c : Char} (cs : Str)
    (hc : c ∈ ['0', '1', '2', '3', '4', '5', '6', '7', '8', '9']) :
    parseInt (c :: cs) = (parseNat (c :: cs)).map (fun n => (n : ℤ)) := by
  fin_cases hc <;> rfl

theorem parseInt_renderNat (n : ℕ) : parseInt (renderNat n) = some (n : ℤ) := by
  cases hr : renderNat n with
  | nil => exact absurd hr (renderNat_ne_nil n)
  | cons c cs =>
    have hc : c ∈ ['0', '1', '2', '3', '4', '5', '6', '7', '8', '9'] :=
      renderNat_mem_digits n c (by rw [hr]; exact List.mem_cons_self c cs)
    rw [parseInt_of_digit cs hc, ← hr, parseNat_renderNat]
    rfl

theorem not_dot_renderNat (n : ℕ) : '.' ∉ renderNat n :=
  fun h => absurd rfl (digits_nice (renderNat_mem_digits n _ h)).2.2.1

theorem not_dot_padZeros {k : ℕ} {s : Str} (hs : '.' ∉ s) : '.' ∉ padZeros k s := by
  unfold padZeros
  intro h
  rcases List.mem_append.mp h with h1 | h1
  · have := List.eq_of_mem_replicate h1
    simp at this
  · exact hs h1

theorem parseFloatCore_pair {ip fp : Str} (hip : ip ≠ []) (hfp : fp ≠ [])
    (hsplit : splitOnCharFn '.' (ip ++ '.' :: fp) = [ip, fp]) :
    parseFloatCore (ip ++ '.' :: fp) =
      match parseNat ip, parseNat fp with
      | some i, some f => some ((i : ℚ) + (f : ℚ) / (10 : ℚ) ^ fp.length)
      | _, _ => none := by
  unfold parseFloatCore
  rw [hsplit]
  dsimp only
  rw [if_neg (by intro h; exact hip h.1), if_neg hip, if_neg hfp]

theorem parseFloatCore_body (a : ℕ) :
    parseFloatCore (renderNat (a / 1000000) ++ '.' :: padZeros 6 (renderNat (a % 1000000))) =
      some ((a : ℚ) / 1000000) := by
  have hfp : padZeros 6 (renderNat (a % 1000000)) ≠ [] := by
    unfold padZeros
    intro h
    exact renderNat_ne_nil _ (List.append_eq_nil.mp h).2
  rw [parseFloatCore_pair (renderNat_ne_nil _) hfp
    (by rw [splitOnCharFn_append _ (not_dot_renderNat _),
      splitOnCharFn_of_not_mem (not_dot_padZeros (not_dot_renderNat _))])]
  rw [parseNat_renderNat, parseNat_padZeros 6 (renderNat_ne_nil _), parseNat_renderNat]
  dsimp only
  have hlen : (padZeros 6 (renderNat (a % 1000000))).length = 6 := by
    unfold padZeros
    have hle : (renderNat (a % 1000000)).length ≤ 6 := by
      refine renderNat_length_le ?_ (by omega)
      have := Nat.mod_lt a (show 0 < 1000000 by omega)
      norm_num
      omega
    simp only [List.length_append, List.length_replicate]
    omega
  rw [hlen]
  congr 1
  have hdm : (1000000 : ℚ) * ((a / 1000000 : ℕ) : ℚ) + ((a % 1000000 : ℕ) : ℚ) = (a : ℚ) := by
    exact_mod_cast congrArg (Nat.cast (R := ℚ)) (Nat.div_add_mod a 1000000)
  have h10 : ((10 : ℚ) ^ 6) = 1000000 := by norm_num
  rw [h10]
  field_simp
  linarith

theorem parseFloat_fmtFixed6 (n : ℤ) :
    parseFloat (fmtFixed6 n) = some ((n : ℚ) / 1000000) := by
  by_cases hn : n < 0
  · have habs : ((n.natAbs : ℚ)) = -(n : ℚ) := by
      rw [Int.cast_natAbs, Int.cast_abs, abs_of_neg (show (n : ℚ) < 0 by exact_mod_cast hn)]
    unfold fmtFixed6
    rw [if_pos hn]
    simp only [List.cons_append, List.nil_append]
    rw [parseFloat_neg_cons, parseFloatCore_body n.natAbs]
    simp only [Option.map]
    congr 1
    rw [habs]
    ring
  · have habs : ((n.natAbs : ℚ)) = (n : ℚ) := by
      rw [Int.cast_natAbs, Int.cast_abs,
        abs_of_nonneg (show (0 : ℚ) ≤ (n : ℚ) by exact_mod_cast not_lt.mp hn)]
    unfold fmtFixed6
    rw [if_neg hn]
    simp only [List.nil_append]
    cases hr : renderNat (n.natAbs / 1000000) with
    | nil => exact absurd hr (renderNat_ne_nil _)
    | cons c cs =>
      have hc : c ∈ ['0', '1', '2', '3', '4', '5', '6', '7', '8', '9'] :=
        renderNat_mem_digits _ c (by rw [hr]; exact List.mem_cons_self c cs)
      rw [List.cons_append, parseFloat_eq_core_of_digit hc,
        show c :: (cs ++ '.' :: padZeros 6 (renderNat (n.natAbs % 1000000))) =
            renderNat (n.natAbs / 1000000) ++ '.' :: padZeros 6 (renderNat (n.natAbs % 1000000)) by
          rw [hr]
          rfl,
        parseFloatCore_body n.natAbs, habs]

theorem parseFloat_fmt6 (q : ℚ) : parseFloat (fmt6 q) = some (r6 q) := by
  unfold fmt6 r6
  exact parseFloat_fmtFixed6 _

theorem not_slash_renderNat (n : ℕ) : '/' ∉ renderNat n :=
  fun h => absurd rfl (digits_nice (renderNat_mem_digits n _ h)).2.1

theorem refTok_mem (nv : ℕ) (vt vn : ℤ) : ∀ c ∈ refTok nv vt vn,
    c ∈ '/' :: ['0', '1', '2', '3', '4', '5', '6', '7', '8', '9'] := by
  intro c hc
  have hd : ∀ k, c ∈ renderNat k → c ∈ '/' :: ['0', '1', '2', '3', '4', '5', '6', '7', '8', '9'] :=
    fun k h => List.mem_cons_of_mem _ (renderNat_mem_digits k c h)
  unfold refTok at hc
  split at hc
  · rcases List.mem_append.mp hc with h | h
    · rcases List.mem_append.mp h with h1 | h1
      · exact hd _ h1
      · rcases List.mem_cons.mp h1 with h2 | h2
        · simp [h2]
        · exact hd _ h2
    · rcases List.mem_cons.mp h with h1 | h1
      · simp [h1]
      · exact hd _ h1
  · split at hc
    · rcases List.mem_append.mp hc with h | h
      · exact hd _ h
      · rcases List.mem_cons.mp h with h1 | h1
        · simp [h1]
        · rcases List.mem_cons.mp h1 with h2 | h2
          · simp [h2]
          · exact hd _ h2
    · split at hc
      · rcases List.mem_append.mp hc with h | h
        · exact hd _ h
        · rcases List.mem_cons.mp h with h1 | h1
          · simp [h1]
          · exact hd _ h1
      · exact hd _ hc

theorem slashChars_nice {c : Char}
    (h : c ∈ '/' :: ['0', '1', '2', '3', '4', '5', '6', '7', '8', '9']) :
    c.isWhitespace = false ∧ c ≠ '\n' ∧ c ≠ ':' ∧ c ≠ '#' := by
  fin_cases h <;> decide

theorem refTok_ne_nil (nv : ℕ) (vt vn : ℤ) : refTok nv vt vn ≠ [] := by
  unfold refTok
  split
  · intro h
    have := (List.append_eq_nil.mp h).2
    simp at this
  · split
    · intro h
      have := (List.append_eq_nil.mp h).2
      simp at this
    · split
      · intro h
        have := (List.append_eq_nil.mp h).2
        simp at this
      · exact renderNat_ne_nil nv

theorem refTok_not_ws (nv : ℕ) (vt vn : ℤ) : ∀ c ∈ refTok nv vt vn,
    c.isWhitespace = false :=
  fun c hc => (slashChars_nice (refTok_mem nv vt vn c hc)).1

theorem not_nl_refTok (nv : ℕ) (vt vn : ℤ) : '\n' ∉ refTok nv vt vn :=
  fun h => absurd rfl (slashChars_nice (refTok_mem nv vt vn _ h)).2.1

theorem parseRef_refTok (nv : ℕ) (vt vn : ℤ) : ∃ r, parseRef (refTok nv vt vn) = some r := by
  unfold refTok
  split
  · unfold parseRef
    rw [List.append_assoc, List.cons_append,
      splitOnCharFn_append _ (not_slash_renderNat _),
      splitOnCharFn_append _ (not_slash_renderNat _),
      splitOnCharFn_of_not_mem (not_slash_renderNat _)]
    dsimp only [List.get?]
    rw [if_neg (renderNat_ne_nil nv), parseInt_renderNat]
    cases hB : renderNat (vt + 1).toNat with
    | nil => exact absurd hB (renderNat_ne_nil _)
    | cons b bs =>
      cases hC : renderNat (vn + 1).toNat with
      | nil => exact absurd hC (renderNat_ne_nil _)
      | cons c cs =>
        dsimp only
        rw [← hB, ← hC, parseInt_renderNat, parseInt_renderNat]
        exact ⟨_, rfl⟩
  · split
    · unfold parseRef
      rw [splitOnCharFn_append _ (not_slash_renderNat _),
        show ('/' :: renderNat (vn + 1).toNat : Str) = [] ++ '/' :: renderNat (vn + 1).toNat
          from rfl,
        splitOnCharFn_append _ (by simp), splitOnCharFn_of_not_mem (not_slash_renderNat _)]
      dsimp only [List.get?]
      rw [if_neg (renderNat_ne_nil nv), parseInt_renderNat]
      cases hC : renderNat (vn + 1).toNat with
      | nil => exact absurd hC (renderNat_ne_nil _)
      | cons c cs =>
        dsimp only
        rw [← hC, parseInt_renderNat]
        exact ⟨_, rfl⟩
    · split
      · unfold parseRef
        rw [splitOnCharFn_append _ (not_slash_renderNat _),
          splitOnCharFn_of_not_mem (not_slash_renderNat _)]
        dsimp only [List.get?]
        rw [if_neg (renderNat_ne_nil nv), parseInt_renderNat]
        cases hB : renderNat (vt + 1).toNat with
        | nil => exact absurd hB (renderNat_ne_nil _)
        | cons b bs =>
          dsimp only
          rw [← hB, parseInt_renderNat]
          exact ⟨_, rfl⟩
      · unfold parseRef
        rw [splitOnCharFn_of_not_mem (not_slash_renderNat _)]
        dsimp only [List.get?]
        rw [if_neg (renderNat_ne_nil nv), parseInt_renderNat]
        exact ⟨_, rfl⟩

theorem splitWS_tokens (t : Str) (toks : List Str) (h1 : t ≠ [])
    (h2 : ∀ c ∈ t, c.isWhitespace = false)
    (htoks : ∀ u ∈ toks, u ≠ [] ∧ ∀ c ∈ u, c.isWhitespace = false) :
    splitWS (t ++ catToks toks) = t :: toks := by
  induction toks generalizing t with
  | nil =>
    rw [catToks, List.append_nil]
    exact splitWS_token t h1 h2
  | cons u us ih =>
    have hu := htoks u (List.mem_cons_self u us)
    rw [catToks, show t ++ ((' ' :: u) ++ catToks us) = t ++ ' ' :: (u ++ catToks us) from by
      simp]
    rw [splitWS_token_space t _ h1 h2,
      ih u hu.1 hu.2 (fun w hw => htoks w (List.mem_cons_of_mem u hw))]

theorem catToks_ne_nil {toks : List Str} (h : toks ≠ []) : catToks toks ≠ [] := by
  cases toks with
  | nil => exact absurd rfl h
  | cons u us =>
    rw [catToks]
    simp

theorem getLast?_catToks {toks : List Str} (hne : toks ≠ [])
    (htoks : ∀ u ∈ toks, u ≠ []) :
    ∃ u ∈ toks, (catToks toks).getLast? = u.getLast? := by
  induction toks with
  | nil => exact absurd rfl hne
  | cons u us ih =>
    cases us with
    | nil =>
      refine ⟨u, by simp, ?_⟩
      rw [catToks, catToks, List.append_nil,
        show (' ' :: u : Str) = [' '] ++ u from rfl,
        List.getLast?_append_of_ne_nil _ (htoks u (by simp))]
    | cons w ws =>
      obtain ⟨x, hx, hxl⟩ := ih (by simp) (fun v hv => htoks v (List.mem_cons_of_mem u hv))
      refine ⟨x, List.mem_cons_of_mem u hx, ?_⟩
      rw [catToks, List.getLast?_append_of_ne_nil _ (catToks_ne_nil (by simp)), hxl]

theorem faceStrLoop_eq (remap : List (ℕ × ℕ)) (face : List (ℤ × ℤ × ℤ)) (acc : Str) :
    faceStrLoop remap face acc = acc ++ catToks (faceToks remap face) := by
  induction face generalizing acc with
  | nil => simp [faceStrLoop, faceToks, catToks]
  | cons r rest ih =>
    rcases r with ⟨v, vt, vn⟩
    rw [faceStrLoop]
    cases h : lookupRemapZ remap v with
    | none =>
      dsimp only
      rw [ih]
      simp [faceToks, List.filterMap_cons, h]
    | some nv =>
      dsimp only
      rw [ih]
      simp [faceToks, List.filterMap_cons, h, catToks, List.append_assoc]

theorem faceToks_shape (remap : List (ℕ × ℕ)) (face : List (ℤ × ℤ × ℤ)) :
    ∀ u ∈ faceToks remap face, ∃ nv vt vn, u = refTok nv vt vn := by
  intro u hu
  unfold faceToks at hu
  obtain ⟨r, _, hr⟩ := List.mem_filterMap.mp hu
  rw [Option.map_eq_some'] at hr
  obtain ⟨nv, _, hu2⟩ := hr
  exact ⟨nv, r.2.1, r.2.2, hu2.symm⟩

theorem emitFace_eq (remap : List (ℕ × ℕ)) (face : List (ℤ × ℤ × ℤ)) :
    emitFace remap face =
      if 3 ≤ (faceToks remap face).length then
        some ("f".data ++ catToks (faceToks remap face))
      else none := by
  unfold emitFace
  rw [faceStrLoop_eq]
  dsimp only
  rw [splitWS_tokens "f".data (faceToks remap face) (by decide) (by decide)
    (fun u hu => by
      obtain ⟨nv, vt, vn, rfl⟩ := faceToks_shape remap face u hu
      exact ⟨refTok_ne_nil nv vt vn, refTok_not_ws nv vt vn⟩)]
  simp only [List.length_cons]
  by_cases h3 : 3 ≤ (faceToks remap face).length
  · rw [if_pos (by omega), if_pos h3]
  · rw [if_neg (by omega), if_neg h3]

theorem emitFaces_eq (remap : List (ℕ × ℕ)) (faces : List (List (ℤ × ℤ × ℤ))) :
    emitFaces remap faces = faces.filterMap (emitFace remap) := by
  induction faces with
  | nil => rfl
  | cons f fs ih =>
    rw [emitFaces, List.filterMap_cons]
    cases h : emitFace remap f with
    | none => rw [ih]
    | some s => rw [ih]

theorem mem_of_getLast?_eq {α : Type} {l : List α} {c : α} (h : l.getLast? = some c) :
    c ∈ l := by
  have hm : c ∈ l.getLast? := by rw [h]; rfl
  obtain ⟨hne, rfl⟩ := List.mem_getLast?_eq_getLast hm
  exact List.getLast_mem hne

theorem splitOnCharFn_joinNL {ls : List Str} (h : ∀ l ∈ ls, '\n' ∉ l) (hne : ls ≠ []) :
    splitOnCharFn '\n' (joinNL ls) = ls := by
  induction ls with
  | nil => exact absurd rfl hne
  | cons s rest ih =>
    cases rest with
    | nil =>
      rw [joinNL]
      exact splitOnCharFn_of_not_mem (h s (by simp))
    | cons t ts =>
      rw [joinNL, splitOnCharFn_append _ (h s (by simp)),
        ih (fun l hl => h l (List.mem_cons_of_mem s hl)) (by simp)]

theorem isPre_append_self (p s : Str) : isPre p (p ++ s) = true := by
  induction p with
  | nil => rfl
  | cons c cs ih => simp [isPre, ih]

theorem stripStr_token_line {t : Str} {toks : List Str} (h1 : t ≠ [])
    (h2 : ∀ c ∈ t, c.isWhitespace = false)
    (htoks : ∀ u ∈ toks, u ≠ [] ∧ ∀ c ∈ u, c.isWhitespace = false) :
    stripStr (t ++ catToks toks) = t ++ catToks toks := by
  apply stripStr_eq_self
  · intro c hc
    rw [List.head?_append_of_ne_nil t h1] at hc
    exact h2 c (List.mem_of_mem_head? (by rw [hc]; rfl))
  · intro c hc
    cases htoks0 : toks with
    | nil =>
      rw [htoks0, catToks, List.append_nil] at hc
      exact h2 c (mem_of_getLast?_eq hc)
    | cons u us =>
      rw [htoks0] at hc
      rw [List.getLast?_append_of_ne_nil _ (catToks_ne_nil (by simp))] at hc
      obtain ⟨x, hx, hxl⟩ := getLast?_catToks (by simp)
        (fun w hw => (htoks w (htoks0 ▸ hw)).1)
      rw [hxl] at hc
      exact (htoks x (htoks0 ▸ hx)).2 c (mem_of_getLast?_eq hc)

theorem vLine_eq (v : V3) :
    vLine v = "v".data ++ catToks [fmt6 v.1, fmt6 v.2.1, fmt6 v.2.2] := by
  simp [vLine, catToks]

theorem vnLine_eq (v : V3) :
    vnLine v = "vn".data ++ catToks [fmt6 v.1, fmt6 v.2.1, fmt6 v.2.2] := by
  simp [vnLine, catToks]

theorem vtLine_eq (t : ℚ × ℚ) :
    vtLine t = "vt".data ++ catToks [fmt6 t.1, fmt6 t.2] := by
  simp [vtLine, catToks]

theorem fmt6_toks (l : List ℚ) :
    ∀ u ∈ l.map fmt6, u ≠ [] ∧ ∀ c ∈ u, c.isWhitespace = false := by
  intro u hu
  obtain ⟨q, _, rfl⟩ := List.mem_map.mp hu
  exact ⟨fmt6_ne_nil q, fmt6_not_ws⟩

theorem step_blank (m : Model) : step m [] = .ok { m with lines := m.lines ++ [[]] } := rfl

theorem step_header (m : Model) :
    step m "# Generated by Procedural 3D Generator".data =
      .ok { m with lines := m.lines ++ ["# Generated by Procedural 3D Generator".data] } := rfl

theorem step_oline (m : Model) :
    step m "o GeneratedModel".data =
      .ok { m with lines := m.lines ++ ["o GeneratedModel".data] } := rfl

theorem toks_fmt3 (a b c : ℚ) :
    ∀ u ∈ [fmt6 a, fmt6 b, fmt6 c], u ≠ [] ∧ ∀ ch ∈ u, ch.isWhitespace = false := by
  intro u hu
  simp only [List.mem_cons, List.not_mem_nil, or_false] at hu
  rcases hu with rfl | rfl | rfl <;> exact ⟨fmt6_ne_nil _, fmt6_not_ws⟩

theorem toks_fmt2 (a b : ℚ) :
    ∀ u ∈ [fmt6 a, fmt6 b], u ≠ [] ∧ ∀ ch ∈ u, ch.isWhitespace = false := by
  intro u hu
  simp only [List.mem_cons, List.not_mem_nil, or_false] at hu
  rcases hu with rfl | rfl <;> exact ⟨fmt6_ne_nil _, fmt6_not_ws⟩

theorem step_vLine (m : Model) (v : V3) :
    step m (vLine v) = .ok { m with
      lines := m.lines ++ [vLine v]
      vertices := m.vertices ++ [some (r6v v)]
      groups := appendToGroup (ensureGroup m.groups m.current_group) m.current_group
        m.vertices.length } := by
  have htoks := toks_fmt3 v.1 v.2.1 v.2.2
  rw [show step m (vLine v) = step m ("v".data ++ catToks [fmt6 v.1, fmt6 v.2.1, fmt6 v.2.2])
    from by rw [vLine_eq]]
  unfold step
  dsimp only
  rw [stripStr_token_line (by decide) (by decide) htoks]
  rw [if_neg ?hc]
  case hc =>
    rintro (h | h)
    · exact List.cons_ne_nil _ _ (show 'v' :: catToks _ = [] from h)
    · have hfalse : isPre ['#'] (['v'] ++
          catToks [fmt6 v.1, fmt6 v.2.1, fmt6 v.2.2]) = false := rfl
      rw [hfalse] at h
      exact absurd h (by decide)
  rw [splitWS_tokens _ _ (by decide) (by decide) htoks]
  simp only [parseFloat_fmt6, reduceIte]
  rw [vLine_eq]
  rfl

theorem step_vnLine (m : Model) (v : V3) :
    step m (vnLine v) = .ok { m with
      lines := m.lines ++ [vnLine v]
      normals := m.normals ++ [r6v v] } := by
  have htoks := toks_fmt3 v.1 v.2.1 v.2.2
  rw [show step m (vnLine v) = step m ("vn".data ++ catToks [fmt6 v.1, fmt6 v.2.1, fmt6 v.2.2])
    from by rw [vnLine_eq]]
  unfold step
  dsimp only
  rw [stripStr_token_line (by decide) (by decide) htoks]
  rw [if_neg ?hc]
  case hc =>
    rintro (h | h)
    · exact List.cons_ne_nil _ _ (show 'v' :: ('n' :: catToks _) = [] from h)
    · have hfalse : isPre ['#'] (['v', 'n'] ++
          catToks [fmt6 v.1, fmt6 v.2.1, fmt6 v.2.2]) = false := rfl
      rw [hfalse] at h
      exact absurd h (by decide)
  rw [splitWS_tokens _ _ (by decide) (by decide) htoks]
  simp only [parseFloat_fmt6, reduceIte]
  rw [vnLine_eq]
  rfl

theorem step_vtLine (m : Model) (t : ℚ × ℚ) :
    step m (vtLine t) = .ok { m with
      lines := m.lines ++ [vtLine t]
      tex_coords := m.tex_coords ++ [(r6 t.1, r6 t.2)] } := by
  have htoks := toks_fmt2 t.1 t.2
  rw [show step m (vtLine t) = step m ("vt".data ++ catToks [fmt6 t.1, fmt6 t.2])
    from by rw [vtLine_eq]]
  unfold step
  dsimp only
  rw [stripStr_token_line (by decide) (by decide) htoks]
  rw [if_neg ?hc]
  case hc =>
    rintro (h | h)
    · exact List.cons_ne_nil _ _ (show 'v' :: ('t' :: catToks _) = [] from h)
    · have hfalse : isPre ['#'] (['v', 't'] ++ catToks [fmt6 t.1, fmt6 t.2]) = false := rfl
      rw [hfalse] at h
      exact absurd h (by decide)
  rw [splitWS_tokens _ _ (by decide) (by decide) htoks]
  simp only [parseFloat_fmt6, reduceIte]
  rw [vtLine_eq]
  rfl

theorem parseRefs_refToks {toks : List Str}
    (h : ∀ u ∈ toks, ∃ nv vt vn, u = refTok nv vt vn) :
    ∃ rs, parseRefs toks = some rs := by
  induction toks with
  | nil => exact ⟨[], rfl⟩
  | cons u us ih =>
    obtain ⟨nv, vt, vn, rfl⟩ := h u (by simp)
    obtain ⟨r, hr⟩ := parseRef_refTok nv vt vn
    obtain ⟨rs, hrs⟩ := ih (fun w hw => h w (List.mem_cons_of_mem _ hw))
    exact ⟨r :: rs, by simp [parseRefs, hr, hrs]⟩

theorem step_fLine (m : Model) (toks : List Str)
    (h : ∀ u ∈ toks, ∃ nv vt vn, u = refTok nv vt vn) :
    ∃ rs, step m ("f".data ++ catToks toks) = .ok { m with
      lines := m.lines ++ ["f".data ++ catToks toks]
      faces := m.faces ++ [rs] } := by
  have htoks : ∀ u ∈ toks, u ≠ [] ∧ ∀ c ∈ u, c.isWhitespace = false := fun u hu => by
    obtain ⟨nv, vt, vn, rfl⟩ := h u hu
    exact ⟨refTok_ne_nil nv vt vn, refTok_not_ws nv vt vn⟩
  obtain ⟨rs, hrs⟩ := parseRefs_refToks h
  refine ⟨rs, ?_⟩
  unfold step
  dsimp only
  rw [stripStr_token_line (by decide) (by decide) htoks]
  rw [if_neg ?hc]
  case hc =>
    rintro (h1 | h1)
    · exact List.cons_ne_nil _ _ (show 'f' :: catToks _ = [] from h1)
    · have hfalse : isPre ['#'] (['f'] ++ catToks toks) = false := rfl
      rw [hfalse] at h1
      exact absurd h1 (by decide)
  rw [splitWS_tokens _ _ (by decide) (by decide) htoks]
  simp only [hrs, reduceIte]
  rfl

theorem step_marker (m : Model) (g : Str) (hg : NameWF g) :
    step m ("# GROUP:".data ++ g) = .ok { m with
      lines := m.lines ++ ["# GROUP:".data ++ g]
      current_group := g
      groups := ensureGroup m.groups g } := by
  obtain ⟨hstrip, hcolon, hnl⟩ := hg
  have hstripline : stripStr ("# GROUP:".data ++ g) = "# GROUP:".data ++ g := by
    apply stripStr_eq_self
    · intro c hc
      rw [List.head?_append_of_ne_nil _ (by decide),
        show ("# GROUP:".data.head? : Option Char) = some '#' from rfl] at hc
      cases hc
      decide
    · intro c hc
      cases hgnil : g with
      | nil =>
        rw [hgnil, List.append_nil,
          show ("# GROUP:".data.getLast? : Option Char) = some ':' from rfl] at hc
        cases hc
        decide
      | cons a as =>
        rw [List.getLast?_append_of_ne_nil _ (by rw [hgnil]; simp)] at hc
        rw [← hstrip] at hc
        exact stripStr_getLast?_not c hc
  unfold step
  dsimp only
  rw [hstripline]
  rw [if_pos (Or.inr (show isPre "#".data ("# GROUP:".data ++ g) = true from rfl))]
  rw [if_pos (isPre_append_self "# GROUP:".data g)]
  rw [show "# GROUP:".data ++ g = "# GROUP".data ++ ':' :: g from rfl]
  rw [splitOnCharFn_append _ (by decide), splitOnCharFn_of_not_mem hcolon]
  simp only [hstrip]

theorem runLines_append_ok {m m' : Model} {l1 : List Str} (h : runLines m l1 = .ok m')
    (l2 : List Str) : runLines m (l1 ++ l2) = runLines m' l2 := by
  induction l1 generalizing m with
  | nil =>
    rw [runLines] at h
    cases h
    rfl
  | cons l ls ih =>
    rw [List.cons_append, runLines]
    rw [runLines] at h
    cases hs : step m l with
    | ok m1 =>
      rw [hs] at h
      exact ih h
    | error e =>
      rw [hs] at h
      exact absurd h (by simp)

theorem runLines_cons_ok {m m1 : Model} {l : Str} (h : step m l = .ok m1) (ls : List Str) :
    runLines m (l :: ls) = runLines m1 ls := by
  rw [runLines, h]

theorem runLines_vLines (m : Model) (vals : List V3) :
    ∃ m', runLines m (vals.map vLine) = .ok m' ∧
      m'.vertices = m.vertices ++ vals.map (fun v => some (r6v v)) ∧
      m'.faces = m.faces := by
  induction vals generalizing m with
  | nil => exact ⟨m, rfl, by simp, rfl⟩
  | cons v vs ih =>
    obtain ⟨m', hrun, hv, hf⟩ := ih { m with
      lines := m.lines ++ [vLine v]
      vertices := m.vertices ++ [some (r6v v)]
      groups := appendToGroup (ensureGroup m.groups m.current_group) m.current_group
        m.vertices.length }
    refine ⟨m', ?_, ?_, hf⟩
    · rw [List.map_cons, runLines, step_vLine]
      exact hrun
    · rw [hv]
      simp

theorem runLines_vnLines (m : Model) (vals : List V3) :
    ∃ m', runLines m (vals.map vnLine) = .ok m' ∧
      m'.vertices = m.vertices ∧ m'.faces = m.faces := by
  induction vals generalizing m with
  | nil => exact ⟨m, rfl, rfl, rfl⟩
  | cons v vs ih =>
    obtain ⟨m', hrun, hv, hf⟩ := ih { m with
      lines := m.lines ++ [vnLine v]
      normals := m.normals ++ [r6v v] }
    refine ⟨m', ?_, hv, hf⟩
    rw [List.map_cons, runLines, step_vnLine]
    exact hrun

theorem runLines_vtLines (m : Model) (vals : List (ℚ × ℚ)) :
    ∃ m', runLines m (vals.map vtLine) = .ok m' ∧
      m'.vertices = m.vertices ∧ m'.faces = m.faces := by
  induction vals generalizing m with
  | nil => exact ⟨m, rfl, rfl, rfl⟩
  | cons v vs ih =>
    obtain ⟨m', hrun, hv, hf⟩ := ih { m with
      lines := m.lines ++ [vtLine v]
      tex_coords := m.tex_coords ++ [(r6 v.1, r6 v.2)] }
    refine ⟨m', ?_, hv, hf⟩
    rw [List.map_cons, runLines, step_vtLine]
    exact hrun

theorem runLines_faceLines (m : Model) (ls : List Str)
    (h : ∀ l ∈ ls, ∃ toks, l = "f".data ++ catToks toks ∧
      ∀ u ∈ toks, ∃ nv vt vn, u = refTok nv vt vn) :
    ∃ m', runLines m ls = .ok m' ∧ m'.vertices = m.vertices ∧
      m'.faces.length = m.faces.length + ls.length := by
  induction ls generalizing m with
  | nil => exact ⟨m, rfl, rfl, by simp⟩
  | cons l ls2 ih =>
    obtain ⟨toks, rfl, htoks⟩ := h l (by simp)
    obtain ⟨rs, hstep⟩ := step_fLine m toks htoks
    obtain ⟨m', hrun, hv, hf⟩ := ih { m with
        lines := m.lines ++ ["f".data ++ catToks toks]
        faces := m.faces ++ [rs] }
      (fun l2 hl2 => h l2 (List.mem_cons_of_mem _ hl2))
    have hf' : m'.faces.length = (m.faces ++ [rs]).length + ls2.length := hf
    refine ⟨m', ?_, by simpa using hv, ?_⟩
    · rw [runLines_cons_ok hstep]
      exact hrun
    · rw [hf']
      simp only [List.length_append, List.length_cons, List.length_nil]
      omega

theorem runLines_groupBlocks (m : Model) (verts : List (Option V3))
    (gs : List (Str × List ℕ)) (hnames : ∀ p ∈ gs, NameWF p.1) :
    ∃ m', runLines m (groupBlocks verts gs) = .ok m' ∧
      m'.vertices = m.vertices ++ (flatGroups gs).map (fun i => some (r6v (valAt verts i))) ∧
      m'.faces = m.faces := by
  induction gs generalizing m with
  | nil => exact ⟨m, rfl, by simp [flatGroups], rfl⟩
  | cons p rest ih =>
    rcases p with ⟨g, idxs⟩
    have hblocks : groupBlocks verts ((g, idxs) :: rest) =
        (("# GROUP:".data ++ g) :: idxs.map (fun i => vLine (valAt verts i))) ++
          groupBlocks verts rest := by
      simp [groupBlocks, groupBlock]
    rw [hblocks, List.cons_append,
      runLines_cons_ok (step_marker m g (hnames (g, idxs) (by simp))) _]
    obtain ⟨m2, hrun2, hv2, hf2⟩ := runLines_vLines { m with
      lines := m.lines ++ ["# GROUP:".data ++ g]
      current_group := g
      groups := ensureGroup m.groups g } (idxs.map (valAt verts))
    obtain ⟨m3, hrun3, hv3, hf3⟩ := ih m2 (fun q hq => hnames q (List.mem_cons_of_mem _ hq))
    refine ⟨m3, ?_, ?_, hf3.trans (hf2.trans rfl)⟩
    · rw [show (idxs.map (fun i => vLine (valAt verts i))) =
        (idxs.map (valAt verts)).map vLine from by
          rw [List.map_map]
          rfl]
      rw [runLines_append_ok hrun2 _]
      exact hrun3
    · rw [hv3, hv2]
      have hflat : flatGroups ((g, idxs) :: rest) = idxs ++ flatGroups rest := by
        simp [flatGroups]
      rw [hflat]
      simp [List.map_map, List.append_assoc]

theorem emitGroupVerts_ok {verts : List (Option V3)} {idxs : List ℕ}
    (h : ∀ i ∈ idxs, ∃ v, verts.get? i = some (some v)) :
    ∀ (ls : List Str) (remap : List (ℕ × ℕ)) (nidx : ℕ),
    emitGroupVerts verts idxs ls remap nidx =
      .ok (ls ++ idxs.map (fun i => vLine (valAt verts i)),
        remap ++ idxs.zip (List.range' nidx idxs.length), nidx + idxs.length) := by
  induction idxs with
  | nil =>
    intro ls remap nidx
    simp [emitGroupVerts]
  | cons i is ih =>
    intro ls remap nidx
    obtain ⟨v, hv⟩ := h i (by simp)
    rw [emitGroupVerts, hv]
    show emitGroupVerts verts is (ls ++ [vLine v]) (remap ++ [(i, nidx)]) (nidx + 1) =
      Except.ok (ls ++ List.map (fun j => vLine (valAt verts j)) (i :: is),
        remap ++ (i :: is).zip (List.range' nidx (i :: is).length), nidx + (i :: is).length)
    rw [ih (fun j hj => h j (List.mem_cons_of_mem _ hj))]
    have hval : valAt verts i = v := by
      unfold valAt
      rw [hv]
      rfl
    rw [List.length_cons, List.range'_succ, List.map_cons, List.zip_cons_cons, hval]
    simp only [Except.ok.injEq, Prod.mk.injEq, List.append_assoc, List.singleton_append,
      and_true, true_and]
    omega

theorem emitGroups_cons_ok {verts : List (Option V3)} {g : Str} {idxs : List ℕ}
    {rest : List (Str × List ℕ)} {ls : List Str} {remap : List (ℕ × ℕ)} {nidx : ℕ}
    {acc' : List Str × List (ℕ × ℕ) × ℕ}
    (h : emitGroupVerts verts idxs (ls ++ ["# GROUP:".data ++ g]) remap nidx = .ok acc') :
    emitGroups verts ((g, idxs) :: rest) (ls, remap, nidx) = emitGroups verts rest acc' := by
  rw [emitGroups, h]

theorem emitGroups_ok {verts : List (Option V3)} {gs : List (Str × List ℕ)}
    (h : ∀ p ∈ gs, ∀ i ∈ p.2, ∃ v, verts.get? i = some (some v)) :
    ∀ (ls : List Str) (remap : List (ℕ × ℕ)) (nidx : ℕ),
    emitGroups verts gs (ls, remap, nidx) =
      .ok (ls ++ groupBlocks verts gs,
        remap ++ (flatGroups gs).zip (List.range' nidx (flatGroups gs).length),
        nidx + (flatGroups gs).length) := by
  induction gs with
  | nil =>
    intro ls remap nidx
    simp [emitGroups, groupBlocks, flatGroups]
  | cons p rest ih =>
    rcases p with ⟨g, idxs⟩
    intro ls remap nidx
    rw [emitGroups_cons_ok (emitGroupVerts_ok (h (g, idxs) (by simp)) _ _ _),
      ih (fun q hq => h q (List.mem_cons_of_mem _ hq))]
    have hflat : flatGroups ((g, idxs) :: rest) = idxs ++ flatGroups rest := by
      simp [flatGroups]
    rw [hflat]
    have hsplit : List.range' nidx (idxs ++ flatGroups rest).length =
        List.range' nidx idxs.length ++
          List.range' (nidx + idxs.length) (flatGroups rest).length := by
      rw [List.length_append]
      rw [show nidx + idxs.length = nidx + 1 * idxs.length by omega,
        List.range'_append, Nat.add_comm]
    rw [hsplit, List.zip_append (by rw [List.length_range'])]
    have hblocks : groupBlocks verts ((g, idxs) :: rest) =
        (("# GROUP:".data ++ g) :: idxs.map (fun i => vLine (valAt verts i))) ++
          groupBlocks verts rest := by
      simp [groupBlocks, groupBlock]
    rw [hblocks]
    simp [List.append_assoc]
    omega

theorem toObjLines_ok (m : Model)
    (h : ∀ p ∈ m.groups, ∀ i ∈ p.2, ∃ v, m.vertices.get? i = some (some v)) :
    toObjLines m = .ok
      (["# Generated by Procedural 3D Generator".data, "o GeneratedModel".data, []] ++
        groupBlocks m.vertices m.groups ++ [[]] ++ m.normals.map vnLine ++ [[]] ++
        m.tex_coords.map vtLine ++ [[]] ++
        emitFaces ((flatGroups m.groups).zip (List.range' 1 (flatGroups m.groups).length))
          m.faces) := by
  unfold toObjLines
  rw [emitGroups_ok h]
  simp [List.append_assoc]

theorem lookupRemap_zip {l : List ℕ} {k : ℕ} (hk : k ∈ l) :
    ∀ s, (lookupRemap (l.zip (List.range' s l.length)) k).isSome = true := by
  induction l with
  | nil => simp at hk
  | cons a as ih =>
    intro s
    rw [List.length_cons, List.range'_succ, List.zip_cons_cons, lookupRemap]
    by_cases hak : a = k
    · rw [if_pos hak]
      rfl
    · rw [if_neg hak]
      refine ih ?_ (s + 1)
      rcases List.mem_cons.mp hk with h1 | h1
      · exact absurd h1.symm hak
      · exact h1

theorem length_filterMap_all_some {α β : Type} (f : α → Option β) (l : List α)
    (h : ∀ a ∈ l, (f a).isSome = true) : (l.filterMap f).length = l.length := by
  induction l with
  | nil => rfl
  | cons a as ih =>
    obtain ⟨b, hb⟩ := Option.isSome_iff_exists.mp (h a (by simp))
    rw [List.filterMap_cons_some hb, List.length_cons, List.length_cons,
      ih (fun x hx => h x (List.mem_cons_of_mem _ hx))]

theorem faceToks_length {remap : List (ℕ × ℕ)} {face : List (ℤ × ℤ × ℤ)}
    (h : ∀ r ∈ face, (lookupRemapZ remap r.1).isSome = true) :
    (faceToks remap face).length = face.length := by
  unfold faceToks
  exact length_filterMap_all_some _ _ (fun r hr => by
    obtain ⟨nv, hnv⟩ := Option.isSome_iff_exists.mp (h r hr)
    rw [hnv]
    rfl)

theorem flatGroups_ensureGroup (gs : List (Str × List ℕ)) (g : Str) :
    flatGroups (ensureGroup gs g) = flatGroups gs := by
  unfold ensureGroup
  split
  · rfl
  · simp [flatGroups]

theorem flatGroups_appendToGroup (gs : List (Str × List ℕ)) (g : Str) (i : ℕ) :
    List.Perm (flatGroups (appendToGroup gs g i)) (flatGroups gs ++ [i]) := by
  induction gs with
  | nil => simp [appendToGroup, flatGroups]
  | cons q rest ih =>
    rcases q with ⟨k, v⟩
    rw [appendToGroup]
    split
    · have h1 : flatGroups ((k, v ++ [i]) :: rest) = (v ++ [i]) ++ flatGroups rest := by
        simp [flatGroups]
      have h2 : flatGroups ((k, v) :: rest) = v ++ flatGroups rest := by
        simp [flatGroups]
      rw [h1, h2, List.append_assoc, List.append_assoc]
      exact List.Perm.append_left v List.perm_append_comm
    · have h1 : flatGroups ((k, v) :: appendToGroup rest g i) =
          v ++ flatGroups (appendToGroup rest g i) := by
        simp [flatGroups]
      have h2 : flatGroups ((k, v) :: rest) = v ++ flatGroups rest := by
        simp [flatGroups]
      rw [h1, h2, List.append_assoc]
      exact List.Perm.append_left v ih

theorem names_ensureGroup {gs : List (Str × List ℕ)} {g : Str} {p : Str × List ℕ}
    (hp : p ∈ ensureGroup gs g) : p ∈ gs ∨ p = (g, []) := by
  unfold ensureGroup at hp
  split at hp
  · exact Or.inl hp
  · rcases List.mem_append.mp hp with h | h
    · exact Or.inl h
    · simp only [List.mem_singleton] at h
      exact Or.inr h

theorem names_appendToGroup {gs : List (Str × List ℕ)} {g : Str} {i : ℕ} {p : Str × List ℕ}
    (hp : p ∈ appendToGroup gs g i) : p.1 = g ∨ p ∈ gs := by
  induction gs with
  | nil =>
    simp only [appendToGroup, List.mem_singleton] at hp
    exact Or.inl (by rw [hp])
  | cons q rest ih =>
    rcases q with ⟨k, v⟩
    rw [appendToGroup] at hp
    split at hp
    · rename_i hk
      rcases List.mem_cons.mp hp with h | h
      · exact Or.inl (by rw [h]; exact hk)
      · exact Or.inr (List.mem_cons_of_mem _ h)
    · rcases List.mem_cons.mp hp with h | h
      · exact Or.inr (by rw [h]; exact List.mem_cons_self _ _)
      · rcases ih h with h1 | h1
        · exact Or.inl h1
        · exact Or.inr (List.mem_cons_of_mem _ h1)

theorem initModel_wf : ModelWF initModel := by
  refine ⟨by simp [initModel], ?_, by simp [initModel], by decide, by decide, by decide⟩
  simp [initModel, flatGroups]

theorem stripStr_nameWF {seg : Str} (hcolon : ':' ∉ seg) (hnl : '\n' ∉ seg) :
    NameWF (stripStr seg) :=
  ⟨stripStr_idem seg, fun h => hcolon (mem_stripStr _ h), fun h => hnl (mem_stripStr _ h)⟩

theorem step_wf {m m' : Model} {l : Str} (h : step m l = .ok m') (hwf : ModelWF m)
    (hnl : '\n' ∉ l) : ModelWF m' := by
  obtain ⟨hlive, hperm, hnames, hcg⟩ := hwf
  unfold step at h
  dsimp only at h
  split at h
  · split at h
    · split at h
      · rename_i seg rest heq
        cases h
        have hsegcolon : ':' ∉ seg :=
          not_mem_splitOnCharFn ':' _ seg (by rw [heq]; simp)
        have hsegnl : '\n' ∉ seg := by
          intro hmem
          exact hnl (mem_stripStr _
            (mem_of_mem_splitOnCharFn seg (by rw [heq]; simp) '\n' hmem))
        have hname := stripStr_nameWF hsegcolon hsegnl
        refine ⟨hlive, ?_, ?_, hname⟩
        · show List.Perm (flatGroups (ensureGroup m.groups (stripStr seg))) _
          rw [flatGroups_ensureGroup]
          exact hperm
        · intro p hp
          rcases names_ensureGroup hp with h1 | h1
          · exact hnames p h1
          · rw [h1]
            exact hname
      · exact Except.noConfusion h
    · cases h
      exact ⟨hlive, hperm, hnames, hcg⟩
  · split at h
    · cases h
      exact ⟨hlive, hperm, hnames, hcg⟩
    · split at h
      · split at h
        · split at h
          · rename_i x y z hx hy hz
            cases h
            refine ⟨?_, ?_, ?_, hcg⟩
            · intro w hw
              rcases List.mem_append.mp hw with h1 | h1
              · exact hlive w h1
              · simp only [List.mem_singleton] at h1
                rw [h1]
                simp
            · show List.Perm (flatGroups (appendToGroup (ensureGroup m.groups m.current_group)
                  m.current_group m.vertices.length))
                (List.range (m.vertices ++ [some (x, y, z)]).length)
              refine (flatGroups_appendToGroup _ _ _).trans ?_
              rw [flatGroups_ensureGroup,
                show (m.vertices ++ [some (x, y, z)]).length = m.vertices.length + 1 from by simp,
                List.range_succ]
              exact hperm.append_right [m.vertices.length]
            · intro p hp
              rcases names_appendToGroup hp with h1 | h1
              · exact h1 ▸ hcg
              · rcases names_ensureGroup h1 with h2 | h2
                · exact hnames p h2
                · rw [h2]
                  exact hcg
          · exact Except.noConfusion h
        · exact Except.noConfusion h
      · split at h
        · split at h
          · split at h
            · cases h
              exact ⟨hlive, hperm, hnames, hcg⟩
            · exact Except.noConfusion h
          · exact Except.noConfusion h
        · split at h
          · split at h
            · split at h
              · cases h
                exact ⟨hlive, hperm, hnames, hcg⟩
              · exact Except.noConfusion h
            · exact Except.noConfusion h
          · split at h
            · split at h
              · cases h
                exact ⟨hlive, hperm, hnames, hcg⟩
              · exact Except.noConfusion h
            · split at h
              · split at h
                · cases h
                  exact ⟨hlive, hperm, hnames, hcg⟩
                · cases h
                  exact ⟨hlive, hperm, hnames, hcg⟩
              · cases h
                exact ⟨hlive, hperm, hnames, hcg⟩

theorem runLines_wf {ls : List Str} : ∀ {m m' : Model}, runLines m ls = .ok m' →
    ModelWF m → (∀ l ∈ ls, '\n' ∉ l) → ModelWF m' := by
  induction ls with
  | nil =>
    intro m m' h hwf _
    rw [runLines] at h
    cases h
    exact hwf
  | cons l rest ih =>
    intro m m' h hwf hnl
    rw [runLines] at h
    cases hs : step m l with
    | ok m1 =>
      rw [hs] at h
      exact ih h (step_wf hs hwf (hnl l (by simp))) (fun x hx => hnl x (List.mem_cons_of_mem _ hx))
    | error e =>
      rw [hs] at h
      exact Except.noConfusion h

theorem parse_wf {content : Str} {m : Model} (h : parse content = .ok m) : ModelWF m := by
  unfold parse at h
  exact runLines_wf h initModel_wf
    (fun l hl => not_mem_splitOnCharFn '\n' content l hl)

theorem mem_flatGroups {gs : List (Str × List ℕ)} {p : Str × List ℕ} {i : ℕ}
    (hp : p ∈ gs) (hi : i ∈ p.2) : i ∈ flatGroups gs := by
  unfold flatGroups
  rw [List.mem_flatten]
  exact ⟨p.2, List.mem_map.mpr ⟨p, hp, rfl⟩, hi⟩

theorem groups_live {m : Model} (hwf : ModelWF m) :
    ∀ p ∈ m.groups, ∀ i ∈ p.2, ∃ v, m.vertices.get? i = some (some v) := by
  obtain ⟨hlive, hperm, _, _⟩ := hwf
  intro p hp i hi
  have hmem : i ∈ flatGroups m.groups := mem_flatGroups hp hi
  have hlt : i < m.vertices.length := List.mem_range.mp (hperm.mem_iff.mp hmem)
  obtain ⟨o, ho⟩ : ∃ o, m.vertices.get? i = some o := by
    cases hg : m.vertices.get? i with
    | none =>
      rw [List.get?_eq_none] at hg
      omega
    | some o => exact ⟨o, rfl⟩
  cases hov : o with
  | none => exact absurd (hov ▸ List.get?_mem ho) (fun hh => hlive none hh rfl)
  | some v => exact ⟨v, hov ▸ ho⟩

theorem valAt_range (vs : List (Option V3)) (h : ∀ o ∈ vs, o ≠ none) :
    (List.range vs.length).map (valAt vs) = vs.filterMap id := by
  induction vs with
  | nil => rfl
  | cons o rest ih =>
    rw [List.length_cons, List.range_succ_eq_map, List.map_cons, List.map_map]
    have hmap : (List.range rest.length).map (valAt (o :: rest) ∘ Nat.succ) =
        (List.range rest.length).map (valAt rest) :=
      List.map_congr_left (fun i _ => rfl)
    rw [hmap, ih (fun x hx => h x (List.mem_cons_of_mem _ hx))]
    cases ho : o with
    | none => exact absurd ho (h o (List.mem_cons_self o rest))
    | some v => rfl

theorem mem_catToks {toks : List Str} {c : Char} (hc : c ∈ catToks toks) :
    c = ' ' ∨ ∃ u ∈ toks, c ∈ u := by
  induction toks with
  | nil => simp [catToks] at hc
  | cons u us ih =>
    rw [catToks] at hc
    rcases List.mem_append.mp hc with h | h
    · rcases List.mem_cons.mp h with h1 | h1
      · exact Or.inl h1
      · exact Or.inr ⟨u, List.mem_cons_self u us, h1⟩
    · rcases ih h with h1 | ⟨w, hw, hcw⟩
      · exact Or.inl h1
      · exact Or.inr ⟨w, List.mem_cons_of_mem _ hw, hcw⟩

theorem not_nl_vLine (v : V3) : '\n' ∉ vLine v := by
  rw [vLine_eq]
  intro h
  rcases List.mem_append.mp h with h1 | h1
  · exact absurd h1 (by decide)
  · rcases mem_catToks h1 with h2 | ⟨u, hu, hcu⟩
    · exact absurd h2 (by decide)
    · simp only [List.mem_cons, List.not_mem_nil, or_false] at hu
      rcases hu with rfl | rfl | rfl <;> exact not_nl_fmt6 _ hcu

theorem not_nl_vnLine (v : V3) : '\n' ∉ vnLine v := by
  rw [vnLine_eq]
  intro h
  rcases List.mem_append.mp h with h1 | h1
  · exact absurd h1 (by decide)
  · rcases mem_catToks h1 with h2 | ⟨u, hu, hcu⟩
    · exact absurd h2 (by decide)
    · simp only [List.mem_cons, List.not_mem_nil, or_false] at hu
      rcases hu with rfl | rfl | rfl <;> exact not_nl_fmt6 _ hcu

theorem not_nl_vtLine (t : ℚ × ℚ) : '\n' ∉ vtLine t := by
  rw [vtLine_eq]
  intro h
  rcases List.mem_append.mp h with h1 | h1
  · exact absurd h1 (by decide)
  · rcases mem_catToks h1 with h2 | ⟨u, hu, hcu⟩
    · exact absurd h2 (by decide)
    · simp only [List.mem_cons, List.not_mem_nil, or_false] at hu
      rcases hu with rfl | rfl <;> exact not_nl_fmt6 _ hcu

theorem not_nl_marker {g : Str} (hg : NameWF g) : '\n' ∉ "# GROUP:".data ++ g := by
  intro h
  rcases List.mem_append.mp h with h1 | h1
  · exact absurd h1 (by decide)
  · exact hg.2.2 h1

theorem not_nl_groupBlocks {vs : List (Option V3)} {gs : List (Str × List ℕ)}
    (hnames : ∀ p ∈ gs, NameWF p.1) :
    ∀ l ∈ groupBlocks vs gs, '\n' ∉ l := by
  intro l hl
  unfold groupBlocks at hl
  rw [List.mem_flatten] at hl
  obtain ⟨blk, hblk, hlblk⟩ := hl
  obtain ⟨p, hp, rfl⟩ := List.mem_map.mp hblk
  unfold groupBlock at hlblk
  rcases List.mem_cons.mp hlblk with h1 | h1
  · rw [h1]
    exact not_nl_marker (hnames p hp)
  · obtain ⟨i, _, rfl⟩ := List.mem_map.mp h1
    exact not_nl_vLine _

theorem not_nl_faceLine {toks : List Str}
    (h : ∀ u ∈ toks, ∃ nv vt vn, u = refTok nv vt vn) :
    '\n' ∉ "f".data ++ catToks toks := by
  intro hc
  rcases List.mem_append.mp hc with h1 | h1
  · exact absurd h1 (by decide)
  · rcases mem_catToks h1 with h2 | ⟨u, hu, hcu⟩
    · exact absurd h2 (by decide)
    · obtain ⟨nv, vt, vn, rfl⟩ := h u hu
      exact not_nl_refTok nv vt vn hcu

theorem runLines_nil (m : Model) : runLines m [] = .ok m := rfl

theorem runLines_headers (m0 : Model) :
    ∃ m1, runLines m0 ["# Generated by Procedural 3D Generator".data,
      "o GeneratedModel".data, []] = .ok m1 ∧ m1.vertices = m0.vertices ∧
      m1.faces = m0.faces := by
  rw [runLines_cons_ok (step_header _), runLines_cons_ok (step_oline _),
    runLines_cons_ok (step_blank _)]
  exact ⟨_, runLines_nil _, rfl, rfl⟩

theorem runLines_sections (m0 : Model) (verts : List (Option V3))
    (gs : List (Str × List ℕ)) (normals : List V3) (texs : List (ℚ × ℚ))
    (FL : List Str) (hnames : ∀ p ∈ gs, NameWF p.1)
    (hFL : ∀ l ∈ FL, ∃ toks, l = "f".data ++ catToks toks ∧
      ∀ u ∈ toks, ∃ nv vt vn, u = refTok nv vt vn) :
    ∃ m2, runLines m0 (groupBlocks verts gs ++
        ([] :: (normals.map vnLine ++ ([] :: (texs.map vtLine ++ ([] :: FL)))))) = .ok m2 ∧
      m2.vertices = m0.vertices ++ (flatGroups gs).map (fun i => some (r6v (valAt verts i))) ∧
      m2.faces.length = m0.faces.length + FL.length := by
  obtain ⟨mG, hGrun, hGv, hGf⟩ := runLines_groupBlocks m0 verts gs hnames
  obtain ⟨mN, hNrun, hNv, hNf⟩ := runLines_vnLines { mG with lines := mG.lines ++ [[]] } normals
  obtain ⟨mT, hTrun, hTv, hTf⟩ := runLines_vtLines { mN with lines := mN.lines ++ [[]] } texs
  obtain ⟨mF, hFrun, hFv, hFf⟩ := runLines_faceLines { mT with lines := mT.lines ++ [[]] } FL hFL
  refine ⟨mF, ?_, ?_, ?_⟩
  · rw [runLines_append_ok hGrun, runLines_cons_ok (step_blank mG),
      runLines_append_ok hNrun, runLines_cons_ok (step_blank mN),
      runLines_append_ok hTrun, runLines_cons_ok (step_blank mT)]
    exact hFrun
  · exact hFv.trans (hTv.trans (hNv.trans hGv))
  · calc mF.faces.length = mT.faces.length + FL.length := hFf
      _ = m0.faces.length + FL.length := by rw [hTf, hNf, hGf]

theorem emitFace_valid {m : Model} (hwf : ModelWF m) {f : List (ℤ × ℤ × ℤ)}
    (hf3 : 3 ≤ f.length)
    (hfv : ∀ r ∈ f, 0 ≤ r.1 ∧ r.1 < (m.vertices.length : ℤ)) :
    emitFace ((flatGroups m.groups).zip (List.range' 1 (flatGroups m.groups).length)) f =
      some ("f".data ++ catToks (faceToks
        ((flatGroups m.groups).zip (List.range' 1 (flatGroups m.groups).length)) f)) := by
  have hsome : ∀ r ∈ f, (lookupRemapZ
      ((flatGroups m.groups).zip (List.range' 1 (flatGroups m.groups).length)) r.1).isSome
        = true := by
    intro r hr
    obtain ⟨h0, hlt⟩ := hfv r hr
    unfold lookupRemapZ
    rw [if_pos h0]
    apply lookupRemap_zip
    apply hwf.2.1.mem_iff.mpr
    rw [List.mem_range]
    omega
  rw [emitFace_eq, if_pos (by rw [faceToks_length hsome]; exact hf3)]

theorem emitFaces_valid {m : Model} (hwf : ModelWF m) (hv : FacesValid m) :
    (emitFaces ((flatGroups m.groups).zip (List.range' 1 (flatGroups m.groups).length))
        m.faces).length = m.faces.length ∧
      ∀ l ∈ emitFaces ((flatGroups m.groups).zip
          (List.range' 1 (flatGroups m.groups).length)) m.faces,
        ∃ toks, l = "f".data ++ catToks toks ∧
          ∀ u ∈ toks, ∃ nv vt vn, u = refTok nv vt vn := by
  constructor
  · rw [emitFaces_eq]
    refine length_filterMap_all_some _ _ (fun f hf => ?_)
    rw [emitFace_valid hwf (hv f hf).1 (hv f hf).2]
    rfl
  · intro l hl
    rw [emitFaces_eq] at hl
    obtain ⟨f, hf, hfl⟩ := List.mem_filterMap.mp hl
    rw [emitFace_valid hwf (hv f hf).1 (hv f hf).2] at hfl
    cases hfl
    exact ⟨_, rfl, faceToks_shape _ _⟩

theorem liveCount_all_some {m : Model} (h : ∀ o ∈ m.vertices, o ≠ none) :
    liveCount m = m.vertices.length :=
  length_filterMap_all_some id _ (fun o ho => Option.ne_none_iff_isSome.mp (h o ho))

/-- C1: for every valid OBJ input (every parsed face has at least three
vertex references, all of which resolve to stored vertices), serializing the
parsed model succeeds, the serialized text parses again, and the second
model has the same live vertex count, the same face count, and the same
live vertex positions as the first up to rounding at six decimal digits
(`r6v`), as a multiset (the serializer regroups vertices by group). -/
theorem C1_parse_serialize_parse_round_trip (content : Str) (m : Model)
    (hp : parse content = .ok m) (hv : FacesValid m) :
    ∃ out m2, to_obj_string m = .ok out ∧ parse out = .ok m2 ∧
      liveCount m2 = liveCount m ∧ m2.faces.length = m.faces.length ∧
      List.Perm (posList m2) ((posList m).map r6v) := by
  have hwf := parse_wf hp
  obtain ⟨hlive, hperm, hnames, hcg⟩ := hwf
  have hogl := toObjLines_ok m (groups_live ⟨hlive, hperm, hnames, hcg⟩)
  obtain ⟨hFLlen, hFLshape⟩ := emitFaces_valid ⟨hlive, hperm, hnames, hcg⟩ hv
  refine ⟨joinNL (["# Generated by Procedural 3D Generator".data, "o GeneratedModel".data, []] ++
      groupBlocks m.vertices m.groups ++ [[]] ++ m.normals.map vnLine ++ [[]] ++
      m.tex_coords.map vtLine ++ [[]] ++
      emitFaces ((flatGroups m.groups).zip (List.range' 1 (flatGroups m.groups).length))
        m.faces), ?_⟩
  have hnlL : ∀ l ∈ (["# Generated by Procedural 3D Generator".data,
      "o GeneratedModel".data, []] ++
      groupBlocks m.vertices m.groups ++ [[]] ++ m.normals.map vnLine ++ [[]] ++
      m.tex_coords.map vtLine ++ [[]] ++
      emitFaces ((flatGroups m.groups).zip (List.range' 1 (flatGroups m.groups).length))
        m.faces), '\n' ∉ l := by
    intro l hl
    rcases List.mem_append.mp hl with hl | hlF
    · rcases List.mem_append.mp hl with hl | hl3
      · rcases List.mem_append.mp hl with hl | hlT
        · rcases List.mem_append.mp hl with hl | hl2
          · rcases List.mem_append.mp hl with hl | hlN
            · rcases List.mem_append.mp hl with hl | hl1
              · rcases List.mem_append.mp hl with hlH | hlG
                · simp only [List.mem_cons, List.not_mem_nil, or_false] at hlH
                  rcases hlH with rfl | rfl | rfl <;> decide
                · exact not_nl_groupBlocks hnames l hlG
              · simp only [List.mem_singleton] at hl1
                subst hl1
                simp
            · obtain ⟨v, _, rfl⟩ := List.mem_map.mp hlN
              exact not_nl_vnLine v
          · simp only [List.mem_singleton] at hl2
            subst hl2
            simp
        · obtain ⟨t, _, rfl⟩ := List.mem_map.mp hlT
          exact not_nl_vtLine t
      · simp only [List.mem_singleton] at hl3
        subst hl3
        simp
    · obtain ⟨toks, rfl, hshape⟩ := hFLshape l hlF
      exact not_nl_faceLine hshape
  obtain ⟨m1, h1run, h1v, h1f⟩ := runLines_headers initModel
  obtain ⟨m2, h2run, h2v, h2f⟩ := runLines_sections m1 m.vertices m.groups m.normals
    m.tex_coords
    (emitFaces ((flatGroups m.groups).zip (List.range' 1 (flatGroups m.groups).length)) m.faces)
    hnames hFLshape
  refine ⟨m2, ?_, ?_, ?_, ?_, ?_⟩
  · unfold to_obj_string
    rw [hogl]
  · unfold parse
    rw [splitOnCharFn_joinNL hnlL (by simp)]
    rw [show (["# Generated by Procedural 3D Generator".data, "o GeneratedModel".data,
        ([] : Str)] ++
        groupBlocks m.vertices m.groups ++ [[]] ++ m.normals.map vnLine ++ [[]] ++
        m.tex_coords.map vtLine ++ [[]] ++
        emitFaces ((flatGroups m.groups).zip (List.range' 1 (flatGroups m.groups).length))
          m.faces) =
      ["# Generated by Procedural 3D Generator".data, "o GeneratedModel".data, []] ++
        (groupBlocks m.vertices m.groups ++
          ([] :: (m.normals.map vnLine ++ ([] :: (m.tex_coords.map vtLine ++ ([] ::
            emitFaces ((flatGroups m.groups).zip
              (List.range' 1 (flatGroups m.groups).length)) m.faces)))))) from by
      simp [List.append_assoc]]
    rw [runLines_append_ok h1run, h2run]
  · rw [show liveCount m2 = (m2.vertices.filterMap id).length from rfl, h2v, h1v]
    rw [show initModel.vertices = [] from rfl, List.nil_append]
    rw [List.filterMap_map]
    rw [show (id ∘ fun i => some (r6v (valAt m.vertices i))) =
      (some ∘ fun i => r6v (valAt m.vertices i)) from rfl]
    rw [List.filterMap_eq_map]
    rw [List.length_map, liveCount_all_some hlive, hperm.length_eq, List.length_range]
  · rw [h2f, h1f, show initModel.faces = [] from rfl]
    rw [show (([] : List (List (ℤ × ℤ × ℤ))).length) = 0 from rfl, Nat.zero_add]
    exact hFLlen
  · rw [show posList m2 = m2.vertices.filterMap id from rfl, h2v, h1v]
    rw [show initModel.vertices = [] from rfl, List.nil_append, List.filterMap_map]
    rw [show (id ∘ fun i => some (r6v (valAt m.vertices i))) =
      (some ∘ fun i => r6v (valAt m.vertices i)) from rfl]
    rw [List.filterMap_eq_map]
    have hpos : posList m = (List.range m.vertices.length).map (valAt m.vertices) :=
      (valAt_range m.vertices hlive).symm
    rw [hpos, List.map_map]
    exact hperm.map _

/-- Concrete instance of the C1 round trip on the input `"v 1 2 3\nf 1 1 1"`. -/
theorem C1_round_trip_witness :
    parse "v 1 2 3\nf 1 1 1".data = .ok mW1 ∧
      ∃ out m2, to_obj_string mW1 = .ok out ∧ parse out = .ok m2 ∧
        liveCount m2 = liveCount mW1 ∧ m2.faces.length = mW1.faces.length ∧
        List.Perm (posList m2) ((posList mW1).map r6v) :=
  ⟨by decide, C1_parse_serialize_parse_round_trip "v 1 2 3\nf 1 1 1".data mW1
    (by decide) (by unfold FacesValid; decide)⟩

theorem splitWSAux_pre_tok (rest : Str) :
    ∀ cur, cur ≠ [] → ∃ t2 toks, splitWSAux rest cur = (cur.reverse ++ t2) :: toks := by
  induction rest with
  | nil =>
    intro cur hc
    refine ⟨[], [], ?_⟩
    unfold splitWSAux
    rw [if_neg hc, List.append_nil]
  | cons c rest ih =>
    intro cur hc
    unfold splitWSAux
    by_cases hw : c.isWhitespace
    · rw [if_pos hw, if_neg hc]
      exact ⟨[], splitWSAux rest [], by rw [List.append_nil]⟩
    · rw [if_neg hw]
      obtain ⟨t2, toks, h⟩ := ih (c :: cur) (List.cons_ne_nil c cur)
      refine ⟨c :: t2, toks, ?_⟩
      rw [h, List.reverse_cons, List.append_assoc, List.singleton_append]

theorem splitWS_cons_tok {c : Char} {l2 : Str} (hc : c.isWhitespace = false) :
    ∃ t2 toks, splitWS (c :: l2) = (c :: t2) :: toks := by
  obtain ⟨t2, toks, h⟩ := splitWSAux_pre_tok l2 [c] (by simp)
  refine ⟨t2, toks, ?_⟩
  unfold splitWS splitWSAux
  rw [if_neg (by simp [hc]), h]
  simp

theorem step_badV (m : Model) (line : Str) (h : BadVLine line) :
    step m line = .error .exc := by
  obtain ⟨args, hsp, hbad⟩ := h
  have hne : stripStr line ≠ [] := by
    intro h0
    rw [h0] at hsp
    simp [splitWS, splitWSAux] at hsp
  have hnp : ¬ (isPre "#".data (stripStr line) = true) := by
    intro hpre
    cases hl : stripStr line with
    | nil => exact hne hl
    | cons c l2 =>
      rw [hl] at hpre hsp
      have hcw : c.isWhitespace = false := stripStr_head?_not c (by rw [hl]; rfl)
      have hc : c = '#' := by
        have h2 : (decide ('#' = c) && isPre [] l2) = true := hpre
        simp at h2
        exact h2.1.symm
      subst hc
      obtain ⟨t2, toks, hsp2⟩ := splitWS_cons_tok hcw
      have h1 := hsp2.symm.trans hsp
      injection h1 with h2 _
      injection h2 with h3 _
      exact absurd h3 (by decide)
  unfold step
  dsimp only
  rw [if_neg ?hcond]
  case hcond =>
    rintro (h0 | h0)
    · exact hne h0
    · exact hnp h0
  rw [hsp]
  rcases args with _ | ⟨a0, _ | ⟨a1, _ | ⟨a2, rest⟩⟩⟩
  · rfl
  · rfl
  · rfl
  · dsimp only
    simp only [reduceIte]
    rcases hbad with hlen | ⟨a, ha, hpf⟩
    · simp at hlen
      omega
    · simp only [List.take, List.mem_cons, List.not_mem_nil, or_false] at ha
      cases h1 : parseFloat a0 <;> cases h2 : parseFloat a1 <;> cases h3 : parseFloat a2 <;>
        first
          | rfl
          | (exfalso
             rcases ha with rfl | rfl | rfl <;> simp [h1, h2, h3] at hpf)

theorem runLines_error_of_bad : ∀ (ls : List Str) (l0 : Str), l0 ∈ ls → BadVLine l0 →
    ∀ m, runLines m ls = .error .exc := by
  intro ls
  induction ls with
  | nil =>
    intro l0 h
    exact absurd h (List.not_mem_nil l0)
  | cons l ls ih =>
    intro l0 hl0 hb m
    rcases List.mem_cons.mp hl0 with rfl | hmem
    · rw [runLines, step_badV m l0 hb]
    · rw [runLines]
      cases hs : step m l with
      | error e =>
        cases e
        rfl
      | ok mp => exact ih l0 hmem hb mp

/-- C2 counterexample: the claim says every recognized directive with wrong
arity aborts the parse, but `"v 1 2 3 4"` (a `v` directive with four
arguments instead of three) parses successfully: the extra argument is
silently ignored and a full model is produced. -/
theorem C2_wrong_arity_accepted_counterexample :
    parse "v 1 2 3 4".data = .ok mW2 := by decide

/-- C2 (amended): a `v` directive with too few arguments or with
non-numeric data in its first three arguments aborts the whole parse with
an exception; no partial model is returned.  (Extra arguments beyond the
third are ignored, not rejected.) -/
theorem C2_malformed_v_line_aborts (content : Str) (l : Str)
    (hl : l ∈ splitOnCharFn '\n' content) (hb : BadVLine l) :
    parse content = .error .exc := by
  unfold parse
  exact runLines_error_of_bad _ l hl hb initModel

/-- Concrete instance: parsing `"v 1 2"` (missing one coordinate) aborts. -/
theorem C2_malformed_v_line_aborts_witness :
    parse "v 1 2".data = .error .exc :=
  C2_malformed_v_line_aborts "v 1 2".data "v 1 2".data (by decide)
    ⟨["1".data, "2".data], by decide, Or.inl (by decide)⟩

theorem tombLoop_ok : ∀ (idxs : List ℕ) (vs : List (Option V3)),
    (∀ i ∈ idxs, i < vs.length) →
    ∃ vs2, tombLoop idxs vs = .ok vs2 ∧ vs2.length = vs.length ∧
      (∀ i ∈ idxs, vs2.get? i = some none) ∧
      ∀ j, j ∉ idxs → vs2.get? j = vs.get? j := by
  intro idxs
  induction idxs with
  | nil =>
    intro vs _
    exact ⟨vs, rfl, rfl, by simp, fun j _ => rfl⟩
  | cons i rest ih =>
    intro vs hr
    have hi : i < vs.length := hr i (List.mem_cons_self i rest)
    obtain ⟨vs2, h1, h2, h3, h4⟩ := ih (vs.set i none) (by
      intro k hk
      rw [List.length_set]
      exact hr k (List.mem_cons_of_mem i hk))
    refine ⟨vs2, ?_, ?_, ?_, ?_⟩
    · unfold tombLoop
      rw [if_pos hi]
      exact h1
    · rw [h2, List.length_set]
    · intro k hk
      rcases List.mem_cons.mp hk with rfl | hk2
      · by_cases hmem : k ∈ rest
        · exact h3 k hmem
        · rw [h4 k hmem, List.get?_set_eq, List.get?_eq_get hi]
          rfl
      · exact h3 k hk2
    · intro j hj
      rw [h4 j (fun hm => hj (List.mem_cons_of_mem i hm))]
      exact List.get?_set_ne _ _ (fun he => hj (he ▸ List.mem_cons_self i rest))

theorem lookupGroup_eq_none (gs : List (Str × List ℕ)) (name : Str)
    (h : name ∉ gs.map Prod.fst) : lookupGroup gs name = none := by
  induction gs with
  | nil => rfl
  | cons p rest ih =>
    obtain ⟨k, v⟩ := p
    simp only [List.map_cons, List.mem_cons] at h
    unfold lookupGroup
    rw [if_neg (fun he => h (Or.inl he.symm))]
    exact ih (fun hm => h (Or.inr hm))

theorem lookupGroup_removeKey (gs : List (Str × List ℕ)) (name : Str)
    (h : (gs.map Prod.fst).Nodup) : lookupGroup (removeKey gs name) name = none := by
  induction gs with
  | nil => rfl
  | cons p rest ih =>
    obtain ⟨k, v⟩ := p
    simp only [List.map_cons, List.nodup_cons] at h
    unfold removeKey
    by_cases hk : k = name
    · rw [if_pos hk]
      exact lookupGroup_eq_none rest name (hk ▸ h.1)
    · rw [if_neg hk]
      unfold lookupGroup
      rw [if_neg hk]
      exact ih h.2

/-- C3: with well-formed group bookkeeping (distinct group names, indices of
the named group in range) and no face referencing a tombstoned or
out-of-range vertex before the call, `remove_group name` removes the group
entry, tombstones exactly the group's vertex indices, and leaves no
remaining face referencing a tombstoned vertex; if the group does not
exist the model is returned unchanged. -/
theorem C3_remove_group_spec (m : Model) (name : Str)
    (hnodup : (m.groups.map Prod.fst).Nodup)
    (hrange : ∀ i ∈ (lookupGroup m.groups name).getD [], i < m.vertices.length)
    (hfaces : ∀ f ∈ m.faces, ∀ r ∈ f, 0 ≤ r.1 ∧
      (m.vertices.get? r.1.toNat).getD none ≠ none) :
    (lookupGroup m.groups name = none → remove_group m name = .ok m) ∧
      ((lookupGroup m.groups name).isSome →
        ∃ m2, remove_group m name = .ok m2 ∧
          lookupGroup m2.groups name = none ∧
          (∀ i ∈ (lookupGroup m.groups name).getD [], m2.vertices.get? i = some none) ∧
          ∀ f ∈ m2.faces, ∀ r ∈ f, (m2.vertices.get? r.1.toNat).getD none ≠ none) := by
  constructor
  · intro h
    unfold remove_group
    rw [h]
  · intro hs
    obtain ⟨idxs, hl⟩ := Option.isSome_iff_exists.mp hs
    have hrange2 : ∀ i ∈ idxs, i < m.vertices.length := by
      rw [hl] at hrange
      exact hrange
    obtain ⟨vs2, htomb, hlen, hset, hkeep⟩ := tombLoop_ok idxs m.vertices hrange2
    refine ⟨{ m with
        vertices := vs2
        faces := m.faces.filter (fun f => !(f.any (refHits idxs)))
        groups := removeKey m.groups name }, ?_, ?_, ?_, ?_⟩
    · unfold remove_group
      rw [hl]
      dsimp only
      rw [htomb]
    · exact lookupGroup_removeKey m.groups name hnodup
    · intro i hi
      rw [hl] at hi
      exact hset i hi
    · intro f hf r hr
      obtain ⟨hf0, hno⟩ := List.mem_filter.mp hf
      have h0 := (hfaces f hf0 r hr).1
      have hlive := (hfaces f hf0 r hr).2
      have hnot : r.1.toNat ∉ idxs := by
        intro hmem
        have hhit : f.any (refHits idxs) = true :=
          List.any_eq_true.mpr ⟨r, hr, List.any_eq_true.mpr ⟨r.1.toNat, hmem, by
            simp only [decide_eq_true_eq]
            exact Int.toNat_of_nonneg h0⟩⟩
        rw [hhit] at hno
        simp at hno
      show (vs2.get? r.1.toNat).getD none ≠ none
      rw [hkeep _ hnot]
      exact hlive

/-- Concrete instance of C3 on `mW3` and the group named `"g"`. -/
theorem C3_remove_group_spec_witness :
    (lookupGroup mW3.groups "g".data = none → remove_group mW3 "g".data = .ok mW3) ∧
      ((lookupGroup mW3.groups "g".data).isSome →
        ∃ m2, remove_group mW3 "g".data = .ok m2 ∧
          lookupGroup m2.groups "g".data = none ∧
          (∀ i ∈ (lookupGroup mW3.groups "g".data).getD [], m2.vertices.get? i = some none) ∧
          ∀ f ∈ m2.faces, ∀ r ∈ f, (m2.vertices.get? r.1.toNat).getD none ≠ none) :=
  C3_remove_group_spec mW3 "g".data (by decide) (by decide) (by decide)

/-- C4: code bug.  The spec says Scale-all is a no-op on tombstoned
vertices, but `apply_overall_scale` evaluates `vertex * scale` on every
entry of `self.vertices`, including `None` placeholders, and
`None * float` raises `TypeError`.  Concretely: parse a two-group model,
remove group `"g"` (leaving a tombstone and a live vertex), then
Scale-all(2) raises instead of scaling the live vertex. -/
theorem C4_overall_scale_raises_on_tombstone :
    parse "# GROUP:g\nv 1 2 3\n# GROUP:h\nv 4 5 6".data = .ok mW4 ∧
      remove_group mW4 "g".data = .ok mW4r ∧
      mW4r.vertices = [none, some (4, 5, 6)] ∧
      apply_overall_scale mW4r 2 = .error .exc := by decide

/-- C5 counterexample: the claim says a face containing an unmapped
vertex-reference is skipped entirely, but the serializer skips only the
individual reference: the parsed face references the nonexistent vertex 5
(internal index 4, absent from the remap built for `mW5`), yet the face
section of the output consists of the line `"f 1 2 3"` built from its
three surviving references — the face is emitted, not skipped. -/
theorem C5_face_with_unmapped_ref_emitted_counterexample :
    parse "v 0 0 0\nv 1 0 0\nv 2 0 0\nv 3 0 0\nf 1 2 3 5".data = .ok mW5 ∧
      (∃ f ∈ mW5.faces, ∃ r ∈ f, lookupRemapZ
        ((flatGroups mW5.groups).zip (List.range' 1 (flatGroups mW5.groups).length))
          r.1 = none) ∧
      emitFaces ((flatGroups mW5.groups).zip (List.range' 1 (flatGroups mW5.groups).length))
        mW5.faces = ["f 1 2 3".data] := by decide

/-- C5 (amended): during serialization each vertex-reference whose index
has no remap entry is skipped individually (`faceToks` keeps exactly the
mapped references, in order), and the face line is emitted precisely when
at least three references survive, built from the surviving tokens only. -/
theorem C5_unmapped_refs_skipped_individually (remap : List (ℕ × ℕ))
    (face : List (ℤ × ℤ × ℤ)) :
    emitFace remap face =
      if 3 ≤ (faceToks remap face).length then
        some ("f".data ++ catToks (faceToks remap face))
      else none :=
  emitFace_eq remap face

theorem vsum_affine (a : V3) (k : ℚ) : ∀ g : List V3,
    vsum (g.map (fun v => v3add a (v3smul k (v3sub v a)))) =
      v3add (v3smul (g.length : ℚ) a)
        (v3smul k (v3sub (vsum g) (v3smul (g.length : ℚ) a))) := by
  intro g
  induction g with
  | nil =>
    simp only [List.map_nil, vsum, List.length_nil, Nat.cast_zero]
    refine Prod.ext ?_ (Prod.ext ?_ ?_) <;> simp [v3add, v3smul, v3sub]
  | cons v g ih =>
    simp only [List.map_cons, vsum, List.length_cons, Nat.cast_add, Nat.cast_one, ih]
    refine Prod.ext ?_ (Prod.ext ?_ ?_) <;> simp [v3add, v3smul, v3sub] <;> ring

theorem centroid_affine (g : List V3) (k : ℚ) (hg : g ≠ []) :
    centroid (g.map (fun v => v3add (centroid g) (v3smul k (v3sub v (centroid g))))) =
      centroid g := by
  have hn : (g.length : ℚ) ≠ 0 :=
    Nat.cast_ne_zero.mpr (fun h => hg (List.length_eq_zero.mp h))
  unfold centroid
  rw [vsum_affine, List.length_map]
  refine Prod.ext ?_ (Prod.ext ?_ ?_) <;>
    simp only [v3add, v3smul, v3sub] <;> field_simp

theorem getVerts_ok : ∀ (idxs : List ℕ) (vs : List (Option V3)),
    (∀ i ∈ idxs, ∃ v, vs.get? i = some (some v)) →
    getVerts vs idxs = .ok (idxs.map (valAt vs)) := by
  intro idxs
  induction idxs with
  | nil => intro vs _; rfl
  | cons i rest ih =>
    intro vs hlive
    obtain ⟨v, hv⟩ := hlive i (List.mem_cons_self i rest)
    unfold getVerts
    rw [hv, ih vs (fun j hj => hlive j (List.mem_cons_of_mem i hj))]
    have hval : valAt vs i = v := by
      unfold valAt
      rw [hv]
      rfl
    rw [List.map_cons, hval]

theorem scaleGroupLoop_ok (c : V3) (k : ℚ) : ∀ (idxs : List ℕ) (vs : List (Option V3)),
    idxs.Nodup → (∀ i ∈ idxs, ∃ v, vs.get? i = some (some v)) →
    ∃ vs2, scaleGroupLoop c k idxs vs = .ok vs2 ∧
      vs2.length = vs.length ∧
      (∀ i ∈ idxs, vs2.get? i =
        some (some (v3add c (v3smul k (v3sub (valAt vs i) c))))) ∧
      ∀ j, j ∉ idxs → vs2.get? j = vs.get? j := by
  intro idxs
  induction idxs with
  | nil =>
    intro vs _ _
    exact ⟨vs, rfl, rfl, by simp, fun j _ => rfl⟩
  | cons i rest ih =>
    intro vs hnd hlive
    obtain ⟨v, hv⟩ := hlive i (List.mem_cons_self i rest)
    obtain ⟨hirest, hndr⟩ := List.nodup_cons.mp hnd
    obtain ⟨vs2, h1, h2, h3, h4⟩ := ih (vs.set i (some (v3add c (v3smul k (v3sub v c)))))
      hndr (by
        intro j hj
        obtain ⟨w, hw⟩ := hlive j (List.mem_cons_of_mem i hj)
        refine ⟨w, ?_⟩
        rw [List.get?_set_ne _ _ (fun he => hirest (by rw [he]; exact hj))]
        exact hw)
    have hval : valAt vs i = v := by
      unfold valAt
      rw [hv]
      rfl
    refine ⟨vs2, ?_, ?_, ?_, ?_⟩
    · unfold scaleGroupLoop
      rw [hv]
      exact h1
    · rw [h2, List.length_set]
    · intro j hj
      rcases List.mem_cons.mp hj with rfl | hj2
      · rw [h4 j hirest, List.get?_set_eq, hv, hval]
        rfl
      · rw [h3 j hj2]
        have : valAt (vs.set i (some (v3add c (v3smul k (v3sub v c))))) j = valAt vs j := by
          unfold valAt
          rw [List.get?_set_ne _ _ (fun he => hirest (by rw [he]; exact hj2))]
        rw [this]
    · intro j hj
      rw [h4 j (fun hm => hj (List.mem_cons_of_mem i hm))]
      exact List.get?_set_ne _ _ (fun he => hj (he ▸ List.mem_cons_self i rest))

theorem filterMap_getD_of_live (vs : List (Option V3)) : ∀ (idxs : List ℕ),
    (∀ i ∈ idxs, ∃ v, vs.get? i = some (some v)) →
    idxs.filterMap (fun i => (vs.get? i).getD none) = idxs.map (valAt vs) := by
  intro idxs
  induction idxs with
  | nil => intro _; rfl
  | cons i rest ih =>
    intro hlive
    obtain ⟨v, hv⟩ := hlive i (List.mem_cons_self i rest)
    have hval : valAt vs i = v := by
      unfold valAt
      rw [hv]
      rfl
    simp only [List.filterMap_cons, hv, Option.getD_some, List.map_cons, hval]
    rw [ih (fun j hj => hlive j (List.mem_cons_of_mem i hj))]

/-- C6: under the group bookkeeping the engine maintains (the named
group's index list duplicate-free and pointing at live vertices),
`apply_group_scale name k` never raises and leaves the arithmetic centroid
of the named group's live vertices unchanged for every factor `k`; if the
group does not exist, or exists with no vertices, the model is returned
unchanged. -/
theorem C6_group_scale_centroid_invariant (m : Model) (name : Str) (k : ℚ)
    (hnodup : ((lookupGroup m.groups name).getD []).Nodup)
    (hlive : ∀ i ∈ (lookupGroup m.groups name).getD [],
      (m.vertices.get? i).getD none ≠ none) :
    (lookupGroup m.groups name = none → apply_group_scale m name k = .ok m) ∧
      (lookupGroup m.groups name = some [] → apply_group_scale m name k = .ok m) ∧
      ∀ idxs, lookupGroup m.groups name = some idxs → idxs ≠ [] →
        ∃ m2, apply_group_scale m name k = .ok m2 ∧
          m2.groups = m.groups ∧
          groupCentroid m2 name = groupCentroid m name := by
  refine ⟨?_, ?_, ?_⟩
  · intro h
    unfold apply_group_scale
    rw [h]
  · intro h
    unfold apply_group_scale
    rw [h]
    rfl
  · intro idxs hl hne
    have hlive2 : ∀ i ∈ idxs, ∃ v, m.vertices.get? i = some (some v) := by
      intro i hi
      have := hlive i (by rw [hl]; exact hi)
      cases hg : m.vertices.get? i with
      | none =>
        rw [hg] at this
        exact absurd rfl this
      | some o =>
        cases o with
        | none =>
          rw [hg] at this
          exact absurd rfl this
        | some v => exact ⟨v, rfl⟩
    have hnodup2 : idxs.Nodup := by
      rw [hl] at hnodup
      exact hnodup
    have hgv := getVerts_ok idxs m.vertices hlive2
    have hgne : idxs.map (valAt m.vertices) ≠ [] := by
      intro h0
      exact hne (List.map_eq_nil.mp h0)
    obtain ⟨vs2, h1, h2, h3, h4⟩ :=
      scaleGroupLoop_ok (centroid (idxs.map (valAt m.vertices))) k idxs m.vertices
        hnodup2 hlive2
    refine ⟨{ m with vertices := vs2 }, ?_, rfl, ?_⟩
    · unfold apply_group_scale
      rw [hl]
      dsimp only
      rw [hgv]
      dsimp only
      rw [if_neg hgne, h1]
    · show centroid (((lookupGroup m.groups name).getD []).filterMap
          (fun i => (vs2.get? i).getD none)) = _
      unfold groupCentroid
      rw [hl]
      simp only [Option.getD_some]
      have hlive3 : ∀ i ∈ idxs, ∃ v, vs2.get? i = some (some v) := by
        intro i hi
        exact ⟨_, h3 i hi⟩
      rw [filterMap_getD_of_live vs2 idxs hlive3,
        filterMap_getD_of_live m.vertices idxs hlive2]
      have hmap : idxs.map (valAt vs2) =
          (idxs.map (valAt m.vertices)).map (fun v =>
            v3add (centroid (idxs.map (valAt m.vertices)))
              (v3smul k (v3sub v (centroid (idxs.map (valAt m.vertices)))))) := by
        rw [List.map_map]
        refine List.map_congr_left (fun i hi => ?_)
        show valAt vs2 i = _
        unfold valAt
        rw [h3 i hi]
        rfl
      rw [hmap, centroid_affine _ k hgne]

/-- Concrete instance of C6 on `mW3`, group `"g"`, factor `2`. -/
theorem C6_group_scale_centroid_invariant_witness :
    ∃ m2, apply_group_scale mW3 "g".data 2 = .ok m2 ∧
      m2.groups = mW3.groups ∧
      groupCentroid m2 "g".data = groupCentroid mW3 "g".data :=
  (C6_group_scale_centroid_invariant mW3 "g".data 2 (by decide) (by decide)).2.2
    [0, 1] (by decide) (by decide)

theorem normR_eq_zero (v : V3R) : normR v = 0 ↔ v = ((0 : ℝ), (0 : ℝ), (0 : ℝ)) := by
  unfold normR
  constructor
  · intro h
    have hs : v.1 ^ 2 + v.2.1 ^ 2 + v.2.2 ^ 2 ≤ 0 := Real.sqrt_eq_zero'.mp h
    have h1 : v.1 = 0 := by nlinarith [sq_nonneg v.1, sq_nonneg v.2.1, sq_nonneg v.2.2]
    have h2 : v.2.1 = 0 := by nlinarith [sq_nonneg v.1, sq_nonneg v.2.1, sq_nonneg v.2.2]
    have h3 : v.2.2 = 0 := by nlinarith [sq_nonneg v.1, sq_nonneg v.2.1, sq_nonneg v.2.2]
    exact Prod.ext h1 (Prod.ext h2 h3)
  · intro h
    rw [h]
    simp

theorem normR_vrdiv (v : V3R) (c : ℝ) (hc : 0 ≤ c) :
    normR (vrdiv v c) = normR v / c := by
  unfold normR vrdiv
  dsimp only
  rw [show (v.1 / c) ^ 2 + (v.2.1 / c) ^ 2 + (v.2.2 / c) ^ 2 =
    (v.1 ^ 2 + v.2.1 ^ 2 + v.2.2 ^ 2) / c ^ 2 from by ring]
  rw [Real.sqrt_div (by positivity), Real.sqrt_sq hc]

theorem normR_normalize (v : V3R) (hv : v ≠ ((0 : ℝ), (0 : ℝ), (0 : ℝ))) :
    normR (vrdiv v (normR v)) = 1 := by
  rw [normR_vrdiv v (normR v) (Real.sqrt_nonneg _)]
  exact div_self (fun h => hv ((normR_eq_zero v).mp h))

/-- C7 (amended): `smooth_normals` with any factor ≤ 0 (in particular 0)
returns the normals unchanged; with factor 1 the smoothed entry for a
normal is unit-length provided the accumulated neighbour average for that
normal is nonzero.  (The original claim's unconditional unit-length part
is false: the average can cancel to the zero vector, see the
counterexample.) -/
theorem C7_smooth_spec (normals : List V3R) (faces : List (List (ℤ × ℤ × ℤ)))
    (vf : List (ℤ × List ℕ)) (nv : V3R) (i : ℕ) :
    (∀ factor : ℝ, factor ≤ 0 → smoothNormalsReal normals faces factor = .ok normals) ∧
      ∀ a cnt, overVF normals faces i vf (nv, 1) = .ok (a, cnt) →
        vrdiv a (cnt : ℝ) ≠ ((0 : ℝ), (0 : ℝ), (0 : ℝ)) →
        ∃ r, smoothOneR normals faces vf 1 i nv = .ok r ∧ normR r = 1 := by
  constructor
  · intro factor hf
    unfold smoothNormalsReal
    rw [if_pos (Or.inr hf)]
  · intro a cnt hov hnz
    have heq : smoothOneR normals faces vf 1 i nv =
        .ok (vrdiv (vgadd (vrsmul (1 - 1) nv)
            (vrsmul 1 (vrdiv (vrdiv a (cnt : ℝ)) (normR (vrdiv a (cnt : ℝ))))))
          (normR (vgadd (vrsmul (1 - 1) nv)
            (vrsmul 1 (vrdiv (vrdiv a (cnt : ℝ)) (normR (vrdiv a (cnt : ℝ)))))))) := by
      unfold smoothOneR
      rw [hov]
    have hb : vgadd (vrsmul (1 - 1 : ℝ) nv)
        (vrsmul 1 (vrdiv (vrdiv a (cnt : ℝ)) (normR (vrdiv a (cnt : ℝ))))) =
        vrdiv (vrdiv a (cnt : ℝ)) (normR (vrdiv a (cnt : ℝ))) := by
      unfold vgadd vrsmul
      refine Prod.ext ?_ (Prod.ext ?_ ?_) <;> dsimp <;> ring
    rw [hb] at heq
    have hu : normR (vrdiv (vrdiv a (cnt : ℝ)) (normR (vrdiv a (cnt : ℝ)))) = 1 :=
      normR_normalize _ hnz
    refine ⟨vrdiv (vrdiv a (cnt : ℝ)) (normR (vrdiv a (cnt : ℝ))), ?_, hu⟩
    rw [heq, hu]
    have hdiv1 : vrdiv (vrdiv (vrdiv a (cnt : ℝ)) (normR (vrdiv a (cnt : ℝ)))) 1 =
        vrdiv (vrdiv a (cnt : ℝ)) (normR (vrdiv a (cnt : ℝ))) := by
      unfold vrdiv
      refine Prod.ext ?_ (Prod.ext ?_ ?_) <;> dsimp <;> ring
    rw [hdiv1]

/-- Concrete instance of the factor-1 part of C7: a single normal
referenced by a single one-vertex face smooths to a unit vector. -/
theorem C7_smooth_spec_witness :
    ∃ r, smoothOneR [((1 : ℝ), 0, 0)] [[(0, -1, 0)]] (buildVFaces [[(0, -1, 0)]])
        1 0 (1, 0, 0) = .ok r ∧ normR r = 1 :=
  (C7_smooth_spec [((1 : ℝ), 0, 0)] [[(0, -1, 0)]] (buildVFaces [[(0, -1, 0)]])
      (1, 0, 0) 0).2 (1, 0, 0) 1
    (by simp +decide only [overVF, overFaceIdxs, faceEntries, sumOthers, pyIdx,
      buildVFaces, buildVFacesAux, vfAddFace, vfAdd, List.foldl, List.get?,
      List.length, reduceIte])
    (by norm_num [vrdiv, Prod.ext_iff])

/-- C7 counterexample to the unconditional unit-length part: with normals
`(2,0,0)` and `(-1,0,0)` and one face whose two references use normal 0
and normal 1, the neighbour accumulation for normal 0 cancels to zero, so
smoothing with factor 1 yields the zero vector (numpy: a NaN normal) for
normal index 0, which is referenced by a face and has norm 0, not 1. -/
theorem C7_factor_one_zero_normal_counterexample :
    NRef [[(0, -1, 0), (1, -1, 1)]] 0 ∧
      smoothNormalsReal [((2 : ℝ), 0, 0), (-1, 0, 0)] [[(0, -1, 0), (1, -1, 1)]] 1 =
        .ok [(0, 0, 0), (1, 0, 0)] ∧
      normR ((0 : ℝ), (0 : ℝ), (0 : ℝ)) ≠ 1 := by
  refine ⟨⟨[(0, -1, 0), (1, -1, 1)], by simp, (0, -1, 0), by simp, rfl⟩, ?_, ?_⟩
  · unfold smoothNormalsReal
    rw [if_neg (by simp)]
    rw [show buildVFaces [[(0, -1, 0), (1, -1, 1)]] = [(0, [0]), (1, [0])] from rfl]
    simp +decide only [smoothAllR, smoothOneR, overVF, overFaceIdxs, faceEntries,
      sumOthers, pyIdx, vgadd, vrdiv, vrsmul, normR, List.get?, List.length, reduceIte]
    norm_num
  · unfold normR
    norm_num

/-- C8 counterexample: the claim says the group name is the key with the
`"_size"` suffix stripped, but the code removes every occurrence of
`"_size"`.  For the key `"_size_size"` (which ends in `"_size"` and is not
`"overall_size"`) the computed group name is `""`, not `"_size"`: the
dispatcher therefore scales the nonexistent group `""` (a no-op) and
leaves the existing group `"_size"` untouched. -/
theorem C8_size_suffix_counterexample :
    (isSuf "_size".data "_size_size".data = true ∧
        "_size_size".data ≠ "overall_size".data) ∧
      replaceAll "_size_size".data "_size".data [] = [] ∧
      dispatchOne mW8 ("_size_size".data, .num 2) = .ok mW8 ∧
      lookupGroup mW8.groups "_size".data = some [0, 1] := by
  have hrep : replaceAll "_size_size".data "_size".data [] = [] := by
    simp +decide [replaceAll]
  refine ⟨⟨by decide, by decide⟩, hrep, ?_, by decide⟩
  have hd : dispatchOne mW8 ("_size_size".data, .num 2) =
      apply_group_scale mW8 (replaceAll "_size_size".data "_size".data []) 2 := by
    unfold dispatchOne
    dsimp only
    rw [if_neg (by decide), if_pos (by decide)]
    rfl
  rw [hd, hrep]
  decide

/-- C8 (amended): for a modifier key that ends in `"_size"` and is not
`"overall_size"`, with a numeric value, the dispatcher invokes Scale-group
with the group name obtained by deleting every occurrence of `"_size"`
from the key (not just a suffix strip) and the factor `float(value)`; and,
when that group exists with well-formed bookkeeping, the call succeeds and
every vertex outside the group is unchanged. -/
theorem C8_size_key_dispatch (m : Model) (name g : Str) (v : MVal) (k : ℚ)
    (hsuf : isSuf "_size".data name = true) (hne : name ≠ "overall_size".data)
    (hv : toFloatM v = .ok k)
    (hg : replaceAll name "_size".data [] = g)
    (hnodup : ((lookupGroup m.groups g).getD []).Nodup)
    (hlive : ∀ i ∈ (lookupGroup m.groups g).getD [],
      (m.vertices.get? i).getD none ≠ none) :
    dispatchOne m (name, v) = apply_group_scale m g k ∧
      ∀ idxs, lookupGroup m.groups g = some idxs →
        ∃ m2, dispatchOne m (name, v) = .ok m2 ∧
          ∀ j, j ∉ idxs → m2.vertices.get? j = m.vertices.get? j := by
  have hd : dispatchOne m (name, v) = apply_group_scale m g k := by
    unfold dispatchOne
    dsimp only
    rw [if_neg hne, if_pos ⟨hsuf, hne⟩, hv, hg]
  refine ⟨hd, ?_⟩
  intro idxs hl
  have hlive2 : ∀ i ∈ idxs, ∃ w, m.vertices.get? i = some (some w) := by
    intro i hi
    have := hlive i (by rw [hl]; exact hi)
    cases hgv : m.vertices.get? i with
    | none =>
      rw [hgv] at this
      exact absurd rfl this
    | some o =>
      cases o with
      | none =>
        rw [hgv] at this
        exact absurd rfl this
      | some w => exact ⟨w, rfl⟩
  have hnodup2 : idxs.Nodup := by
    rw [hl] at hnodup
    exact hnodup
  cases idxs with
  | nil =>
    refine ⟨m, ?_, fun j _ => rfl⟩
    rw [hd]
    unfold apply_group_scale
    rw [hl]
    rfl
  | cons i0 rest =>
    obtain ⟨vs2, h1, h2, h3, h4⟩ :=
      scaleGroupLoop_ok (centroid ((i0 :: rest).map (valAt m.vertices))) k
        (i0 :: rest) m.vertices hnodup2 hlive2
    refine ⟨{ m with vertices := vs2 }, ?_, ?_⟩
    · rw [hd]
      unfold apply_group_scale
      rw [hl]
      dsimp only
      rw [getVerts_ok _ _ hlive2]
      dsimp only
      rw [if_neg (by simp), h1]
    · intro j hj
      exact h4 j hj

/-- Concrete instance of C8: key `"g_size"` with value 2 on `mW3`
dispatches to Scale-group of group `"g"` and leaves the vertex outside
the group (index 2) unchanged. -/
theorem C8_size_key_dispatch_witness :
    ∃ m2, dispatchOne mW3 ("g_size".data, .num 2) = .ok m2 ∧
      ∀ j, j ∉ [0, 1] → m2.vertices.get? j = mW3.vertices.get? j :=
  (C8_size_key_dispatch mW3 "g_size".data "g".data (.num 2) 2 (by decide) (by decide)
      rfl (by simp +decide [replaceAll]) (by decide) (by decide)).2 [0, 1] (by decide)

/-- C9: code bug.  The spec says lines with unrecognized directives are
passed through unmodified to the serialized output; `_parse` does store
every raw line in `self.lines` "for reconstruction", but `to_obj_string`
never reads `self.lines`, so unrecognized directives are silently dropped:
parsing `"s 1"` (a smoothing-group directive) records the line, yet the
serialized output contains no such line. -/
theorem C9_unrecognized_directive_dropped :
    parse "s 1".data = .ok mW9 ∧ mW9.lines = ["s 1".data] ∧
      toObjLines mW9 = .ok outW9 ∧ "s 1".data ∉ outW9 := by decide

/-- C10: `apply_modifiers` is total — it returns a plain string for every
input and modifier list (the `try/except` around the pipeline catches every
exception, so the embedding returns `Str`, never an error) — and it returns
the pipeline's serialization on success and the original `obj_content`
unchanged whenever any stage of parse, transform or serialize raises. -/
theorem C10_apply_modifiers_total (content : Str) (mods : List (Str × MVal)) :
    (pipelineOf content mods = .error .exc → apply_modifiers content mods = content) ∧
      ∀ s, pipelineOf content mods = .ok s → apply_modifiers content mods = s := by
  constructor
  · intro h
    unfold apply_modifiers
    rw [h]
  · intro s h
    unfold apply_modifiers
    rw [h]

/-- Concrete instance of C10: the malformed input `"v 1 2"` makes the
pipeline raise, and `apply_modifiers` returns the input unchanged. -/
theorem C10_apply_modifiers_total_witness :
    pipelineOf "v 1 2".data [] = .error .exc ∧
      apply_modifiers "v 1 2".data [] = "v 1 2".data :=
  ⟨by decide, (C10_apply_modifiers_total "v 1 2".data []).1 (by decide)⟩
